import Mathlib

/-!
# Verification of the amadeus-mcp transaction pipeline and RPC client

Shallow embedding of the transaction construction / finalization pipeline
(`src/wasm/tx.rs`, `src/blockchain/client.rs`) and of the retrying HTTP
client, together with proofs of the specification claims.

Rust strings that are consumed as `as_bytes()` are modelled as `List Nat`
byte lists (each element intended `< 256`); machine integers are modelled
as `Nat`/`Int` with explicit `% 2^w` where overflow matters.
-/

namespace AmadeusMcp

/-! ## Base-`b` positional digits (little-endian), fuel-driven.

Used by the Base58 codec (`bs58` crate semantics) and by the modelled
canonical encoder's self-delimiting length encoding. -/

/-- Little-endian base-`b` digits of `n`, with explicit structural fuel so the
kernel can evaluate it.  `natDigitsF b fuel n` equals the digit list of `n`
whenever `n ≤ fuel`. -/
def natDigitsF (b : Nat) : Nat → Nat → List Nat
  | 0, _ => []
  | fuel + 1, n => if n = 0 then [] else n % b :: natDigitsF b fuel (n / b)

/-- Little-endian base-`b` digits of `n` (minimal: no trailing zeros). -/
def natDigits (b n : Nat) : List Nat := natDigitsF b n n

/-- Value of a little-endian digit list in base `b`. -/
def ofDigitsLE (b : Nat) : List Nat → Nat
  | [] => 0
  | d :: ds => d + b * ofDigitsLE b ds

theorem natDigitsF_eq_of_le (b : Nat) (hb : 2 ≤ b) :
    ∀ fuel₁ fuel₂ n, n ≤ fuel₁ → n ≤ fuel₂ →
      natDigitsF b fuel₁ n = natDigitsF b fuel₂ n := by
  intro fuel₁
  induction fuel₁ with
  | zero =>
    intro fuel₂ n h1 _
    interval_cases n
    cases fuel₂ <;> simp [natDigitsF]
  | succ f ih =>
    intro fuel₂ n h1 h2
    cases fuel₂ with
    | zero =>
      interval_cases n
      simp [natDigitsF]
    | succ f₂ =>
      by_cases hn : n = 0
      · simp [natDigitsF, hn]
      · simp only [natDigitsF, hn, if_false]
        have hdiv : n / b < n := Nat.div_lt_self (Nat.pos_of_ne_zero hn) hb
        have h1' : n / b ≤ f := by omega
        have h2' : n / b ≤ f₂ := by omega
        rw [ih f₂ (n / b) h1' h2']

theorem mem_natDigitsF_lt (b : Nat) (hb : 2 ≤ b) :
    ∀ fuel n d, d ∈ natDigitsF b fuel n → d < b := by
  intro fuel
  induction fuel with
  | zero => intro n d h; simp [natDigitsF] at h
  | succ f ih =>
    intro n d h
    by_cases hn : n = 0
    · simp [natDigitsF, hn] at h
    · simp only [natDigitsF, hn, if_false, List.mem_cons] at h
      rcases h with h | h
      · subst h; exact Nat.mod_lt _ (by omega)
      · exact ih _ _ h

theorem ofDigitsLE_natDigitsF (b : Nat) (hb : 2 ≤ b) :
    ∀ fuel n, n ≤ fuel → ofDigitsLE b (natDigitsF b fuel n) = n := by
  intro fuel
  induction fuel with
  | zero =>
    intro n h
    interval_cases n
    simp [natDigitsF, ofDigitsLE]
  | succ f ih =>
    intro n h
    by_cases hn : n = 0
    · simp [natDigitsF, hn, ofDigitsLE]
    · simp only [natDigitsF, hn, if_false, ofDigitsLE]
      have hdiv : n / b < n := Nat.div_lt_self (Nat.pos_of_ne_zero hn) hb
      rw [ih (n / b) (by omega)]
      exact Nat.mod_add_div n b

theorem getLast?_cons_ne_nil {a : Nat} {l : List Nat} (h : l ≠ []) :
    (a :: l).getLast? = l.getLast? := by
  cases l with
  | nil => exact absurd rfl h
  | cons x xs => rfl

theorem getLast?_natDigitsF_ne_zero (b : Nat) (hb : 2 ≤ b) :
    ∀ fuel n, n ≠ 0 → n ≤ fuel → (natDigitsF b fuel n).getLast? ≠ some 0 := by
  intro fuel
  induction fuel with
  | zero => intro n hn h; omega
  | succ f ih =>
    intro n hn h
    simp only [natDigitsF, hn, if_false]
    by_cases hq : n / b = 0
    · have hnil : natDigitsF b f (n / b) = [] := by
        cases f <;> simp [natDigitsF, hq]
      have hnb : n < b := by
        by_contra h'
        have := Nat.div_pos (le_of_not_lt h') (by omega)
        omega
      rw [hnil]
      have : n % b = n := Nat.mod_eq_of_lt hnb
      simp [List.getLast?, this, hn]
    · have hdiv : n / b < n := Nat.div_lt_self (Nat.pos_of_ne_zero hn) hb
      have hrec := ih (n / b) hq (by omega)
      have hne : natDigitsF b f (n / b) ≠ [] := by
        cases f with
        | zero =>
          exfalso
          have hn1 : n = 1 := by omega
          exact hq (by rw [hn1]; exact Nat.div_eq_of_lt (by omega))
        | succ f' => simp [natDigitsF, hq]
      rw [getLast?_cons_ne_nil hne]
      exact hrec

theorem ofDigitsLE_ne_zero (b : Nat) (hb : 1 ≤ b) :
    ∀ ds : List Nat, ds.getLast? ≠ some 0 → ds ≠ [] → ofDigitsLE b ds ≠ 0 := by
  intro ds
  induction ds with
  | nil => intro _ h; exact absurd rfl h
  | cons d ds ih =>
    intro hlast _
    cases ds with
    | nil =>
      have hd : d ≠ 0 := by
        intro hcon
        exact hlast (by simp [List.getLast?, hcon])
      show d + b * ofDigitsLE b [] ≠ 0
      simp only [ofDigitsLE]
      omega
    | cons e es =>
      have hlast' : (e :: es).getLast? ≠ some 0 := by
        rwa [getLast?_cons_ne_nil (by simp)] at hlast
      have hne := ih hlast' (by simp)
      have hpos : 0 < ofDigitsLE b (e :: es) := Nat.pos_of_ne_zero hne
      show d + b * ofDigitsLE b (e :: es) ≠ 0
      have : 0 < b * ofDigitsLE b (e :: es) := Nat.mul_pos (by omega) hpos
      omega

theorem natDigitsF_ofDigitsLE (b : Nat) (hb : 2 ≤ b) :
    ∀ ds fuel, (∀ d ∈ ds, d < b) → ds.getLast? ≠ some 0 →
      ofDigitsLE b ds ≤ fuel → natDigitsF b fuel (ofDigitsLE b ds) = ds := by
  intro ds
  induction ds with
  | nil =>
    intro fuel _ _ _
    cases fuel <;> simp [natDigitsF, ofDigitsLE]
  | cons d ds ih =>
    intro fuel hlt hlast hfuel
    have hd : d < b := hlt d (List.mem_cons_self d ds)
    have hval : ofDigitsLE b (d :: ds) = d + b * ofDigitsLE b ds := rfl
    have hne : ofDigitsLE b (d :: ds) ≠ 0 :=
      ofDigitsLE_ne_zero b (by omega) _ hlast (by simp)
    have hmod : ofDigitsLE b (d :: ds) % b = d := by
      rw [hval, Nat.add_mul_mod_self_left, Nat.mod_eq_of_lt hd]
    have hdivq : ofDigitsLE b (d :: ds) / b = ofDigitsLE b ds := by
      rw [hval, Nat.add_mul_div_left _ _ (by omega : 0 < b),
        Nat.div_eq_of_lt hd, Nat.zero_add]
    cases fuel with
    | zero => omega
    | succ f =>
      simp only [natDigitsF, hne, if_false]
      rw [hmod, hdivq]
      congr 1
      cases ds with
      | nil =>
        simp only [ofDigitsLE]
        cases f <;> simp [natDigitsF]
      | cons e es =>
        have hlast' : (e :: es).getLast? ≠ some 0 := by
          rwa [getLast?_cons_ne_nil (by simp)] at hlast
        have hlt' : ∀ x ∈ e :: es, x < b := fun x hx => hlt x (List.mem_cons_of_mem _ hx)
        have hw : ofDigitsLE b (e :: es) ≠ 0 :=
          ofDigitsLE_ne_zero b (by omega) _ hlast' (by simp)
        have h2w : 2 * ofDigitsLE b (e :: es) ≤ b * ofDigitsLE b (e :: es) :=
          Nat.mul_le_mul_right _ hb
        have hfuel' : ofDigitsLE b (e :: es) ≤ f := by
          rw [hval] at hfuel
          omega
        exact ih f hlt' hlast' hfuel'

/-! ## Big-endian digit folds -/

/-- Big-endian value of a digit list, computed exactly the way the `bs58`
crate accumulates it: `foldl (fun a d => a * b + d) 0`. -/
def ofDigitsBE (b : Nat) (l : List Nat) : Nat :=
  l.foldl (fun a d => a * b + d) 0

theorem ofDigitsLE_append (b : Nat) :
    ∀ (xs : List Nat) (d : Nat),
      ofDigitsLE b (xs ++ [d]) = ofDigitsLE b xs + d * b ^ xs.length := by
  intro xs
  induction xs with
  | nil => intro d; simp [ofDigitsLE]
  | cons x l ih =>
    intro d
    show x + b * ofDigitsLE b (l ++ [d]) = x + b * ofDigitsLE b l + d * b ^ (l.length + 1)
    rw [ih]
    ring

theorem foldlBE_eq (b : Nat) :
    ∀ (l : List Nat) (a : Nat),
      l.foldl (fun x d => x * b + d) a = a * b ^ l.length + ofDigitsLE b l.reverse := by
  intro l
  induction l with
  | nil => intro a; simp [ofDigitsLE]
  | cons x xs ih =>
    intro a
    rw [List.foldl_cons, ih, List.reverse_cons, ofDigitsLE_append,
      List.length_reverse, List.length_cons]
    ring

theorem ofDigitsBE_reverse (b : Nat) (l : List Nat) :
    ofDigitsBE b l.reverse = ofDigitsLE b l := by
  rw [ofDigitsBE, foldlBE_eq, List.reverse_reverse]
  simp

theorem ofDigitsBE_natDigits_reverse (b : Nat) (hb : 2 ≤ b) (n : Nat) :
    ofDigitsBE b (natDigits b n).reverse = n := by
  rw [ofDigitsBE_reverse]
  exact ofDigitsLE_natDigitsF b hb n n (Nat.le_refl n)

theorem foldlBE_replicate_zero (b : Nat) :
    ∀ z : Nat, (List.replicate z 0).foldl (fun x d => x * b + d) 0 = 0 := by
  intro z
  induction z with
  | zero => rfl
  | succ k ih => simpa [List.replicate_succ] using ih

theorem ofDigitsBE_replicate_append (b : Nat) (z : Nat) (t : List Nat) :
    ofDigitsBE b (List.replicate z 0 ++ t) = ofDigitsBE b t := by
  simp only [ofDigitsBE, List.foldl_append, foldlBE_replicate_zero]

/-! ## Base58 (`bs58` crate semantics)

Encoding treats the input as a big-endian base-256 integer, renders it in
base 58, and prepends one `'1'` per leading zero byte.  Decoding inverts
this; an input byte outside the alphabet fails. -/

/-- The Base58 alphabet `123456789ABCDEFGHJKLMNPQRSTUVWXYZabcdefghijkmnopqrstuvwxyz`
as ASCII byte values. -/
def b58Alphabet : List Nat :=
  [49, 50, 51, 52, 53, 54, 55, 56, 57,
   65, 66, 67, 68, 69, 70, 71, 72, 74, 75, 76, 77, 78,
   80, 81, 82, 83, 84, 85, 86, 87, 88, 89, 90,
   97, 98, 99, 100, 101, 102, 103, 104, 105, 106, 107,
   109, 110, 111, 112, 113, 114, 115, 116, 117, 118, 119, 120, 121, 122]

/-- Alphabet character (ASCII byte) for a digit `d < 58`. -/
def b58Char (d : Nat) : Nat := b58Alphabet.getD d 0

def b58IndexAux : List Nat → Nat → Nat → Option Nat
  | [], _, _ => none
  | x :: xs, c, i => if x = c then some i else b58IndexAux xs c (i + 1)

/-- Digit value of an ASCII byte, `none` when the byte is not in the alphabet
(the `bs58` decode table). -/
def b58Index (c : Nat) : Option Nat := b58IndexAux b58Alphabet c 0

/-- `Option`-valued map over a list, failing when any element fails. -/
def mapOption {α β : Type} (f : α → Option β) : List α → Option (List β)
  | [] => some []
  | a :: l =>
    match f a, mapOption f l with
    | some x, some r => some (x :: r)
    | _, _ => none

/-- Number of leading zero bytes (resp. zero digits). -/
def leadingZeroCount (l : List Nat) : Nat :=
  (l.takeWhile (fun x => x == 0)).length

/-- `bs58::encode`: bytes to Base58 text (as ASCII byte values). -/
def b58Encode (bs : List Nat) : List Nat :=
  List.replicate (leadingZeroCount bs) 49 ++
    (natDigits 58 (ofDigitsBE 256 bs)).reverse.map b58Char

/-- `bs58::decode`: Base58 text (as ASCII byte values) to bytes, `none` on a
byte outside the alphabet. -/
def b58Decode (l : List Nat) : Option (List Nat) :=
  (mapOption b58Index l).map fun ds =>
    List.replicate (leadingZeroCount ds) 0 ++
      (natDigits 256 (ofDigitsBE 58 ds)).reverse

theorem mapOption_cons_some {α β : Type} (f : α → Option β) {a : α} {l : List α}
    {x : β} {r : List β} (h1 : f a = some x) (h2 : mapOption f l = some r) :
    mapOption f (a :: l) = some (x :: r) := by
  show (match f a, mapOption f l with
    | some x, some r => some (x :: r)
    | _, _ => none) = some (x :: r)
  rw [h1, h2]

theorem mapOption_append {α β : Type} (f : α → Option β) :
    ∀ l₁ l₂ r₁ r₂, mapOption f l₁ = some r₁ → mapOption f l₂ = some r₂ →
      mapOption f (l₁ ++ l₂) = some (r₁ ++ r₂) := by
  intro l₁
  induction l₁ with
  | nil =>
    intro l₂ r₁ r₂ h1 h2
    simp only [mapOption] at h1
    cases h1
    simpa using h2
  | cons a l ih =>
    intro l₂ r₁ r₂ h1 h2
    simp only [mapOption] at h1
    cases hfa : f a with
    | none => rw [hfa] at h1; cases h1
    | some x =>
      rw [hfa] at h1
      cases hrest : mapOption f l with
      | none => rw [hrest] at h1; cases h1
      | some r =>
        rw [hrest] at h1
        cases h1
        rw [List.cons_append]
        exact mapOption_cons_some f hfa (ih l₂ r r₂ hrest h2)

theorem mapOption_replicate_49 :
    ∀ z, mapOption b58Index (List.replicate z 49) = some (List.replicate z 0) := by
  intro z
  induction z with
  | zero => rfl
  | succ k ih =>
    simp only [List.replicate_succ, mapOption, ih]
    rfl

theorem b58Index_b58Char (d : Nat) (hd : d < 58) : b58Index (b58Char d) = some d := by
  interval_cases d <;> rfl

theorem mapOption_map_b58Char :
    ∀ ds : List Nat, (∀ d ∈ ds, d < 58) →
      mapOption b58Index (ds.map b58Char) = some ds := by
  intro ds
  induction ds with
  | nil => intro _; rfl
  | cons d l ih =>
    intro h
    have hd := h d (List.mem_cons_self d l)
    rw [List.map_cons]
    exact mapOption_cons_some _ (b58Index_b58Char d hd)
      (ih (fun e he => h e (List.mem_cons_of_mem _ he)))

theorem takeWhile_replicate_append (z : Nat) (t : List Nat)
    (ht : ∀ h tl, t = h :: tl → h ≠ 0) :
    (List.replicate z 0 ++ t).takeWhile (fun x => x == 0) = List.replicate z 0 := by
  induction z with
  | zero =>
    simp only [List.replicate, List.nil_append]
    cases t with
    | nil => rfl
    | cons h tl =>
      have hne := ht h tl rfl
      have hbeq : (h == 0) = false := by simpa using hne
      simp [List.takeWhile_cons, hbeq]
  | succ k ih =>
    rw [List.replicate_succ, List.cons_append, List.takeWhile_cons]
    simp only [beq_self_eq_true, if_true]
    exact congrArg _ ih

theorem dropWhile_zero_head :
    ∀ (l : List Nat) (h : Nat) (tl : List Nat),
      l.dropWhile (fun x => x == 0) = h :: tl → h ≠ 0 := by
  intro l
  induction l with
  | nil => intro h tl hcon; simp [List.dropWhile] at hcon
  | cons x xs ih =>
    intro h tl hcon
    by_cases hx : x = 0
    · rw [List.dropWhile_cons] at hcon
      simp only [hx, beq_self_eq_true, if_true] at hcon
      exact ih h tl hcon
    · have hbeq : (x == 0) = false := by simpa using hx
      rw [List.dropWhile_cons] at hcon
      simp only [hbeq, Bool.false_eq_true, if_false] at hcon
      have hxh : x = h := (List.cons.injEq .. ▸ hcon).1
      omega

theorem takeWhile_zero_eq_replicate (l : List Nat) :
    l.takeWhile (fun x => x == 0) = List.replicate (leadingZeroCount l) 0 := by
  induction l with
  | nil => rfl
  | cons x xs ih =>
    by_cases hx : x = 0
    · subst hx
      simp only [List.takeWhile_cons, leadingZeroCount] at ih ⊢
      simp only [beq_self_eq_true, if_true, List.length_cons]
      rw [List.replicate_succ]
      simpa using ih
    · simp [List.takeWhile_cons, leadingZeroCount, hx]

theorem zeros_decomposition (l : List Nat) :
    l = List.replicate (leadingZeroCount l) 0 ++ l.dropWhile (fun x => x == 0) := by
  conv_lhs => rw [← List.takeWhile_append_dropWhile (p := fun x => x == 0) (l := l)]
  rw [takeWhile_zero_eq_replicate]

theorem natDigits_reverse_head_ne_zero (b n : Nat) (hb : 2 ≤ b) (h : Nat)
    (tl : List Nat) (he : (natDigits b n).reverse = h :: tl) : h ≠ 0 := by
  intro hcon
  subst hcon
  have hn0 : n ≠ 0 := by
    intro h0
    subst h0
    have hnil : (natDigits b 0).reverse = ([] : List Nat) := rfl
    rw [hnil] at he
    cases he
  have hlast : (natDigits b n).getLast? = some 0 := by
    rw [← List.head?_reverse, he]
    rfl
  exact getLast?_natDigitsF_ne_zero b hb n n hn0 (Nat.le_refl n) hlast

/-- Round trip of the `bs58` codec on byte lists. -/
theorem b58Decode_b58Encode (bs : List Nat) (hwf : ∀ x ∈ bs, x < 256) :
    b58Decode (b58Encode bs) = some bs := by
  have hdecomp := zeros_decomposition bs
  have hresthead : ∀ h tl, bs.dropWhile (fun x => x == 0) = h :: tl → h ≠ 0 :=
    fun h tl he => dropWhile_zero_head bs h tl he
  have hdslt : ∀ d ∈ (natDigits 58 (ofDigitsBE 256 bs)).reverse, d < 58 := by
    intro d hd
    exact mem_natDigitsF_lt 58 (by omega) _ _ d (List.mem_reverse.mp hd)
  have hmap : mapOption b58Index (b58Encode bs) =
      some (List.replicate (leadingZeroCount bs) 0 ++
        (natDigits 58 (ofDigitsBE 256 bs)).reverse) :=
    mapOption_append b58Index _ _ _ _
      (mapOption_replicate_49 _) (mapOption_map_b58Char _ hdslt)
  have hdshead : ∀ h tl, (natDigits 58 (ofDigitsBE 256 bs)).reverse = h :: tl → h ≠ 0 :=
    fun h tl he => natDigits_reverse_head_ne_zero 58 _ (by omega) h tl he
  have hlead : leadingZeroCount (List.replicate (leadingZeroCount bs) 0 ++
      (natDigits 58 (ofDigitsBE 256 bs)).reverse) = leadingZeroCount bs := by
    unfold leadingZeroCount
    rw [takeWhile_replicate_append _ _ hdshead]
    simp
  have hvalds : ofDigitsBE 58 (List.replicate (leadingZeroCount bs) 0 ++
      (natDigits 58 (ofDigitsBE 256 bs)).reverse) = ofDigitsBE 256 bs := by
    rw [ofDigitsBE_replicate_append, ofDigitsBE_natDigits_reverse 58 (by omega)]
  have hrestrec : (natDigits 256 (ofDigitsBE 256 bs)).reverse =
      bs.dropWhile (fun x => x == 0) := by
    have hval : ofDigitsBE 256 bs =
        ofDigitsLE 256 (bs.dropWhile (fun x => x == 0)).reverse := by
      conv_lhs => rw [hdecomp]
      rw [ofDigitsBE_replicate_append,
        ← ofDigitsBE_reverse 256 (bs.dropWhile (fun x => x == 0)).reverse,
        List.reverse_reverse]
    have hwfrev : ∀ d ∈ (bs.dropWhile (fun x => x == 0)).reverse, d < 256 := by
      intro d hd
      have hmem := List.mem_reverse.mp hd
      have h2 : d ∈ List.replicate (leadingZeroCount bs) 0 ++
          bs.dropWhile (fun x => x == 0) := List.mem_append_right _ hmem
      rw [← hdecomp] at h2
      exact hwf d h2
    have hlastrev : (bs.dropWhile (fun x => x == 0)).reverse.getLast? ≠ some 0 := by
      rw [List.getLast?_reverse]
      cases hr : bs.dropWhile (fun x => x == 0) with
      | nil => simp
      | cons h tl =>
        have hne := hresthead h tl hr
        simp only [List.head?_cons]
        intro hcon
        exact hne (by injection hcon)
    rw [hval]
    unfold natDigits
    rw [natDigitsF_ofDigitsLE 256 (by omega) _ _ hwfrev hlastrev (Nat.le_refl _),
      List.reverse_reverse]
  unfold b58Decode
  rw [hmap, Option.map_some', hlead, hvalds, hrestrec]
  exact congrArg some hdecomp.symm

/-- Bytes coming out of a successful `b58Decode` are `< 256`. -/
theorem b58Decode_lt (l bs : List Nat) (h : b58Decode l = some bs) :
    ∀ x ∈ bs, x < 256 := by
  intro x hx
  unfold b58Decode at h
  cases hm : mapOption b58Index l with
  | none => rw [hm] at h; cases h
  | some ds =>
    rw [hm, Option.map_some'] at h
    cases h
    rcases List.mem_append.mp hx with hz | hd
    · have := List.eq_of_mem_replicate hz
      omega
    · exact mem_natDigitsF_lt 256 (by omega) _ _ x (List.mem_reverse.mp hd)

/-! ## Canonical encoder

Modelled from the spec: the canonical binary serialization of transaction
structures is performed by the `vecpak` crate, which is not under `src/`
(only its callers in `src/wasm/tx.rs` are).  Per spec §4.1 the encoding is
canonical (field order fixed by schema position), byte-string fields are
length-prefixed raw bytes, absent optional fields are omitted entirely (no
null/empty marker; a map-style field count plus per-field keys keeps
omission and empty string distinguishable), integers round-trip 128-bit
signed values exactly, and decoding is total inverse to encoding. -/

/-- Well-formed byte list: every element is an actual byte value. -/
def WfBytes (l : List Nat) : Prop := ∀ x ∈ l, x < 256

instance (l : List Nat) : Decidable (WfBytes l) := by
  unfold WfBytes
  infer_instance

/-- Modelled from the spec: self-delimiting unsigned-integer encoding used by
the canonical encoder for lengths and counts (base-255 little-endian digits
terminated by a `0xFF` byte). -/
def natEncode (n : Nat) : List Nat := natDigits 255 n ++ [255]

def natDecode : List Nat → Option (Nat × List Nat)
  | [] => none
  | x :: r =>
    if x = 255 then some (0, r)
    else (natDecode r).map fun p => (x + 255 * p.1, p.2)

theorem natDecode_digits (ds : List Nat) (hds : ∀ d ∈ ds, d < 255) (rest : List Nat) :
    natDecode (ds ++ 255 :: rest) = some (ofDigitsLE 255 ds, rest) := by
  induction ds with
  | nil => simp [natDecode, ofDigitsLE]
  | cons d l ih =>
    have hd : d < 255 := hds d (List.mem_cons_self d l)
    have hne : ¬ d = 255 := by omega
    rw [List.cons_append, natDecode]
    simp only [hne, if_false, ih (fun e he => hds e (List.mem_cons_of_mem _ he)),
      Option.map_some']
    rfl

theorem natDecode_natEncode (n : Nat) (rest : List Nat) :
    natDecode (natEncode n ++ rest) = some (n, rest) := by
  have h1 : natEncode n ++ rest = natDigits 255 n ++ 255 :: rest := by
    rw [natEncode, List.append_assoc]
    rfl
  rw [h1, natDecode_digits (natDigits 255 n)
      (fun d hd => mem_natDigitsF_lt 255 (by omega) n n d hd) rest]
  unfold natDigits
  rw [ofDigitsLE_natDigitsF 255 (by omega) n n (Nat.le_refl n)]

theorem wfBytes_append {l₁ l₂ : List Nat} (h₁ : WfBytes l₁) (h₂ : WfBytes l₂) :
    WfBytes (l₁ ++ l₂) := by
  intro x hx
  rcases List.mem_append.mp hx with h | h
  · exact h₁ x h
  · exact h₂ x h

theorem wfBytes_natEncode (n : Nat) : WfBytes (natEncode n) := by
  intro x hx
  rcases List.mem_append.mp hx with h | h
  · have := mem_natDigitsF_lt 255 (by omega) _ _ x h
    omega
  · simp only [List.mem_singleton] at h
    omega

/-- Length-prefixed byte string. -/
def bytesEncode (bs : List Nat) : List Nat := natEncode bs.length ++ bs

def bytesDecode (l : List Nat) : Option (List Nat × List Nat) :=
  (natDecode l).bind fun p =>
    if p.1 ≤ p.2.length then some (p.2.take p.1, p.2.drop p.1) else none

theorem bytesDecode_bytesEncode (bs : List Nat) (rest : List Nat) :
    bytesDecode (bytesEncode bs ++ rest) = some (bs, rest) := by
  rw [bytesEncode, List.append_assoc, bytesDecode, natDecode_natEncode]
  simp only [Option.some_bind]
  rw [if_pos (by simp)]
  simp

theorem wfBytes_bytesEncode {bs : List Nat} (h : WfBytes bs) :
    WfBytes (bytesEncode bs) :=
  wfBytes_append (wfBytes_natEncode _) h

/-- Signed integer: sign byte then magnitude (round-trips any 128-bit value). -/
def intEncode (i : Int) : List Nat :=
  (if i < 0 then 1 else 0) :: natEncode i.natAbs

def intDecode : List Nat → Option (Int × List Nat)
  | 0 :: r => (natDecode r).map fun p => ((p.1 : Int), p.2)
  | 1 :: r => (natDecode r).map fun p => (-(p.1 : Int), p.2)
  | _ => none

theorem intDecode_intEncode (i : Int) (rest : List Nat) :
    intDecode (intEncode i ++ rest) = some (i, rest) := by
  by_cases hi : i < 0
  · rw [show intEncode i ++ rest = 1 :: (natEncode i.natAbs ++ rest) from by
      simp [intEncode, hi]]
    simp only [intDecode, natDecode_natEncode, Option.map_some']
    have habs : -(i.natAbs : Int) = i := by omega
    rw [habs]
  · rw [show intEncode i ++ rest = 0 :: (natEncode i.natAbs ++ rest) from by
      simp [intEncode, hi]]
    simp only [intDecode, natDecode_natEncode, Option.map_some']
    have habs : ((i.natAbs : Int)) = i := by omega
    rw [habs]

theorem wfBytes_intEncode (i : Int) : WfBytes (intEncode i) := by
  intro x hx
  rw [intEncode] at hx
  rcases List.mem_cons.mp hx with h | h
  · split at h <;> omega
  · exact wfBytes_natEncode _ x h

/-- Count-prefixed sequence of byte strings (the `args` array). -/
def bytesListEncode (args : List (List Nat)) : List Nat :=
  natEncode args.length ++ (args.map bytesEncode).flatten

def bytesListDecodeF : Nat → List Nat → Option (List (List Nat) × List Nat)
  | 0, l => some ([], l)
  | k + 1, l =>
    (bytesDecode l).bind fun p =>
      (bytesListDecodeF k p.2).map fun q => (p.1 :: q.1, q.2)

def bytesListDecode (l : List Nat) : Option (List (List Nat) × List Nat) :=
  (natDecode l).bind fun p => bytesListDecodeF p.1 p.2

theorem bytesListDecodeF_encode (args : List (List Nat)) (rest : List Nat) :
    bytesListDecodeF args.length ((args.map bytesEncode).flatten ++ rest) =
      some (args, rest) := by
  induction args generalizing rest with
  | nil => simp [bytesListDecodeF]
  | cons a l ih =>
    rw [List.map_cons, List.flatten_cons, List.append_assoc]
    show bytesListDecodeF (l.length + 1) (bytesEncode a ++ ((l.map bytesEncode).flatten ++ rest)) = _
    rw [bytesListDecodeF, bytesDecode_bytesEncode]
    simp only [Option.some_bind, ih rest, Option.map_some']

theorem bytesListDecode_encode (args : List (List Nat)) (rest : List Nat) :
    bytesListDecode (bytesListEncode args ++ rest) = some (args, rest) := by
  rw [bytesListEncode, List.append_assoc, bytesListDecode, natDecode_natEncode]
  simp only [Option.some_bind]
  exact bytesListDecodeF_encode args rest

theorem wfBytes_bytesListEncode {args : List (List Nat)}
    (h : ∀ a ∈ args, WfBytes a) : WfBytes (bytesListEncode args) := by
  refine wfBytes_append (wfBytes_natEncode _) ?_
  intro x hx
  rcases List.mem_flatten.mp hx with ⟨l, hl, hxl⟩
  rcases List.mem_map.mp hl with ⟨a, ha, rfl⟩
  exact wfBytes_bytesEncode (h a ha) x hxl

/-- Field-key check: decode a length-prefixed key and match it. -/
def expectKey (k : List Nat) (l : List Nat) : Option (List Nat) :=
  (bytesDecode l).bind fun p => if p.1 = k then some p.2 else none

theorem expectKey_encode (k : List Nat) (rest : List Nat) :
    expectKey k (bytesEncode k ++ rest) = some rest := by
  rw [expectKey, bytesDecode_bytesEncode]
  simp

/-! ## Transaction structures (`src/wasm/tx.rs`) -/

/-- `TxAction` from `src/wasm/tx.rs`: field order is schema order
(`args`, `contract`, `function`, `op`, `attached_symbol`, `attached_amount`);
the two optional fields carry `skip_serializing_if = "Option::is_none"`. -/
structure TxAction where
  args : List (List Nat)
  contract : List Nat
  function : List Nat
  op : List Nat
  attached_symbol : Option (List Nat)
  attached_amount : Option (List Nat)
deriving DecidableEq, Repr

/-- `Tx` from `src/wasm/tx.rs`: `action`, 128-bit signed `nonce`, raw
`signer` bytes. -/
structure Tx where
  action : TxAction
  nonce : Int
  signer : List Nat
deriving DecidableEq, Repr

/-- `TxU` (the packed wire object) from `src/wasm/tx.rs`: `hash`,
`signature`, `tx`. -/
structure TxU where
  hash : List Nat
  signature : List Nat
  tx : Tx
deriving DecidableEq, Repr

/-- ASCII bytes of the field keys (schema order fixed). -/
def keyArgs : List Nat := [97, 114, 103, 115]

def keyContract : List Nat := [99, 111, 110, 116, 114, 97, 99, 116]

def keyFunction : List Nat := [102, 117, 110, 99, 116, 105, 111, 110]

def keyOp : List Nat := [111, 112]

def keyAttachedSymbol : List Nat :=
  [97, 116, 116, 97, 99, 104, 101, 100, 95, 115, 121, 109, 98, 111, 108]

def keyAttachedAmount : List Nat :=
  [97, 116, 116, 97, 99, 104, 101, 100, 95, 97, 109, 111, 117, 110, 116]

def keyAction : List Nat := [97, 99, 116, 105, 111, 110]

def keyNonce : List Nat := [110, 111, 110, 99, 101]

def keySigner : List Nat := [115, 105, 103, 110, 101, 114]

def keyHash : List Nat := [104, 97, 115, 104]

def keySignature : List Nat := [115, 105, 103, 110, 97, 116, 117, 114, 101]

def keyTx : List Nat := [116, 120]

def optCount {α : Type} : Option α → Nat
  | none => 0
  | some _ => 1

/-- Modelled from the spec: an optional field is omitted entirely when
absent — it contributes no bytes at all, not a null/empty marker. -/
def optFieldEncode (key : List Nat) : Option (List Nat) → List Nat
  | none => []
  | some v => bytesEncode key ++ bytesEncode v

/-- Modelled from the spec: canonical (map-style) encoding of a `TxAction` —
field count, then `(key, value)` pairs in schema order, absent optional
fields omitted entirely. -/
def encodeAction (a : TxAction) : List Nat :=
  natEncode (4 + optCount a.attached_symbol + optCount a.attached_amount) ++
  bytesEncode keyArgs ++ bytesListEncode a.args ++
  bytesEncode keyContract ++ bytesEncode a.contract ++
  bytesEncode keyFunction ++ bytesEncode a.function ++
  bytesEncode keyOp ++ bytesEncode a.op ++
  optFieldEncode keyAttachedSymbol a.attached_symbol ++
  optFieldEncode keyAttachedAmount a.attached_amount

/-- Modelled from the spec: decoder for the canonical `TxAction` encoding. -/
def decodeAction (l : List Nat) : Option (TxAction × List Nat) :=
  (natDecode l).bind fun pc =>
  (expectKey keyArgs pc.2).bind fun l1 =>
  (bytesListDecode l1).bind fun pargs =>
  (expectKey keyContract pargs.2).bind fun l2 =>
  (bytesDecode l2).bind fun pcon =>
  (expectKey keyFunction pcon.2).bind fun l3 =>
  (bytesDecode l3).bind fun pfn =>
  (expectKey keyOp pfn.2).bind fun l4 =>
  (bytesDecode l4).bind fun pop =>
  if pc.1 = 4 then
    some (⟨pargs.1, pcon.1, pfn.1, pop.1, none, none⟩, pop.2)
  else if pc.1 = 5 then
    (bytesDecode pop.2).bind fun pkey =>
    if pkey.1 = keyAttachedSymbol then
      (bytesDecode pkey.2).map fun psym =>
        (⟨pargs.1, pcon.1, pfn.1, pop.1, some psym.1, none⟩, psym.2)
    else if pkey.1 = keyAttachedAmount then
      (bytesDecode pkey.2).map fun pam =>
        (⟨pargs.1, pcon.1, pfn.1, pop.1, none, some pam.1⟩, pam.2)
    else none
  else if pc.1 = 6 then
    (expectKey keyAttachedSymbol pop.2).bind fun l5 =>
    (bytesDecode l5).bind fun psym =>
    (expectKey keyAttachedAmount psym.2).bind fun l6 =>
    (bytesDecode l6).map fun pam =>
      (⟨pargs.1, pcon.1, pfn.1, pop.1, some psym.1, some pam.1⟩, pam.2)
  else none

/-- Modelled from the spec: canonical encoding of a `Tx`
(`action`, `nonce`, `signer` in schema order). -/
def encodeTx (t : Tx) : List Nat :=
  natEncode 3 ++
  bytesEncode keyAction ++ encodeAction t.action ++
  bytesEncode keyNonce ++ intEncode t.nonce ++
  bytesEncode keySigner ++ bytesEncode t.signer

/-- Modelled from the spec: decoder for the canonical `Tx` encoding. -/
def decodeTx (l : List Nat) : Option (Tx × List Nat) :=
  (natDecode l).bind fun pc =>
  if pc.1 = 3 then
    (expectKey keyAction pc.2).bind fun l1 =>
    (decodeAction l1).bind fun pact =>
    (expectKey keyNonce pact.2).bind fun l2 =>
    (intDecode l2).bind fun pn =>
    (expectKey keySigner pn.2).bind fun l3 =>
    (bytesDecode l3).map fun ps => (⟨pact.1, pn.1, ps.1⟩, ps.2)
  else none

/-- `vecpak::from_slice::<Tx>`: decode, requiring the whole input consumed. -/
def fromSliceTx (l : List Nat) : Option Tx :=
  (decodeTx l).bind fun p => if p.2 = [] then some p.1 else none

/-- Modelled from the spec: canonical encoding of the packed wire object
`TxU` (`hash`, `signature`, `tx` in schema order). -/
def encodeTxU (u : TxU) : List Nat :=
  natEncode 3 ++
  bytesEncode keyHash ++ bytesEncode u.hash ++
  bytesEncode keySignature ++ bytesEncode u.signature ++
  bytesEncode keyTx ++ encodeTx u.tx

/-- Modelled from the spec: decoder for the canonical `TxU` encoding. -/
def decodeTxU (l : List Nat) : Option (TxU × List Nat) :=
  (natDecode l).bind fun pc =>
  if pc.1 = 3 then
    (expectKey keyHash pc.2).bind fun l1 =>
    (bytesDecode l1).bind fun ph =>
    (expectKey keySignature ph.2).bind fun l2 =>
    (bytesDecode l2).bind fun ps =>
    (expectKey keyTx ps.2).bind fun l3 =>
    (decodeTx l3).map fun pt => (⟨ph.1, ps.1, pt.1⟩, pt.2)
  else none

theorem keyAttachedAmount_ne_symbol : keyAttachedAmount ≠ keyAttachedSymbol := by
  decide

/-- Round trip of the canonical `TxAction` codec. -/
theorem decodeAction_encodeAction (a : TxAction) (rest : List Nat) :
    decodeAction (encodeAction a ++ rest) = some (a, rest) := by
  obtain ⟨args, contract, fn, op, sym, amt⟩ := a
  cases sym <;> cases amt <;>
    (simp only [encodeAction, decodeAction, optCount, optFieldEncode,
      List.append_assoc, List.append_nil, List.nil_append,
      natDecode_natEncode, expectKey_encode, bytesListDecode_encode,
      bytesDecode_bytesEncode, intDecode_intEncode, Option.some_bind,
      Option.map_some', keyAttachedAmount_ne_symbol,
      if_true, if_false, reduceIte]
     try norm_num)

/-- Round trip of the canonical `Tx` codec. -/
theorem decodeTx_encodeTx (t : Tx) (rest : List Nat) :
    decodeTx (encodeTx t ++ rest) = some (t, rest) := by
  obtain ⟨action, nonce, signer⟩ := t
  simp only [encodeTx, decodeTx, List.append_assoc,
    natDecode_natEncode, expectKey_encode, decodeAction_encodeAction,
    bytesDecode_bytesEncode, intDecode_intEncode, Option.some_bind,
    Option.map_some', if_true, reduceIte]

theorem fromSliceTx_encodeTx (t : Tx) : fromSliceTx (encodeTx t) = some t := by
  rw [fromSliceTx, show encodeTx t = encodeTx t ++ [] by simp,
    decodeTx_encodeTx]
  rfl

/-- Round trip of the canonical `TxU` codec. -/
theorem decodeTxU_encodeTxU (u : TxU) (rest : List Nat) :
    decodeTxU (encodeTxU u ++ rest) = some (u, rest) := by
  obtain ⟨hash, signature, tx⟩ := u
  simp only [encodeTxU, decodeTxU, List.append_assoc,
    natDecode_natEncode, expectKey_encode, decodeTx_encodeTx,
    bytesDecode_bytesEncode, Option.some_bind,
    Option.map_some', if_true, reduceIte]

/-- Well-formedness of a `Tx` (all byte fields hold byte values). -/
def WfTx (t : Tx) : Prop :=
  (∀ a ∈ t.action.args, WfBytes a) ∧ WfBytes t.action.contract ∧
  WfBytes t.action.function ∧ WfBytes t.action.op ∧
  (∀ s, t.action.attached_symbol = some s → WfBytes s) ∧
  (∀ s, t.action.attached_amount = some s → WfBytes s) ∧
  WfBytes t.signer

theorem wfBytes_optFieldEncode (key : List Nat) (hkey : WfBytes key)
    (o : Option (List Nat)) (ho : ∀ s, o = some s → WfBytes s) :
    WfBytes (optFieldEncode key o) := by
  cases o with
  | none => intro x hx; cases hx
  | some v =>
    exact wfBytes_append (wfBytes_bytesEncode hkey)
      (wfBytes_bytesEncode (ho v rfl))

theorem wfBytes_encodeAction (a : TxAction)
    (hargs : ∀ x ∈ a.args, WfBytes x) (hcon : WfBytes a.contract)
    (hfn : WfBytes a.function) (hop : WfBytes a.op)
    (hsym : ∀ s, a.attached_symbol = some s → WfBytes s)
    (hamt : ∀ s, a.attached_amount = some s → WfBytes s) :
    WfBytes (encodeAction a) := by
  refine wfBytes_append (wfBytes_append (wfBytes_append (wfBytes_append
    (wfBytes_append (wfBytes_append (wfBytes_append (wfBytes_append
      (wfBytes_append (wfBytes_append
        (wfBytes_natEncode _)
        (wfBytes_bytesEncode (by decide)))
        (wfBytes_bytesListEncode hargs))
        (wfBytes_bytesEncode (by decide)))
        (wfBytes_bytesEncode hcon))
        (wfBytes_bytesEncode (by decide)))
        (wfBytes_bytesEncode hfn))
        (wfBytes_bytesEncode (by decide)))
        (wfBytes_bytesEncode hop))
        (wfBytes_optFieldEncode _ (by decide) _ hsym))
        (wfBytes_optFieldEncode _ (by decide) _ hamt)

theorem wfBytes_encodeTx (t : Tx) (h : WfTx t) : WfBytes (encodeTx t) := by
  obtain ⟨hargs, hcon, hfn, hop, hsym, hamt, hsigner⟩ := h
  refine wfBytes_append (wfBytes_append (wfBytes_append (wfBytes_append
    (wfBytes_append (wfBytes_append
      (wfBytes_natEncode _)
      (wfBytes_bytesEncode (by decide)))
      (wfBytes_encodeAction _ hargs hcon hfn hop hsym hamt))
      (wfBytes_bytesEncode (by decide)))
      (wfBytes_intEncode _))
      (wfBytes_bytesEncode (by decide)))
      (wfBytes_bytesEncode hsigner)

/-! ## SHA-256 (`sha2` crate, FIPS 180-4), over byte lists, 32-bit words as
`Nat` reduced `% 2^32`. -/

def w32 (n : Nat) : Nat := n % 4294967296

/-- Right rotation of a 32-bit word. -/
def rotr32 (k w : Nat) : Nat := (w / 2 ^ k + w * 2 ^ (32 - k)) % 4294967296

def bigSigma0 (w : Nat) : Nat := rotr32 2 w ^^^ rotr32 13 w ^^^ rotr32 22 w

def bigSigma1 (w : Nat) : Nat := rotr32 6 w ^^^ rotr32 11 w ^^^ rotr32 25 w

def smallSigma0 (w : Nat) : Nat := rotr32 7 w ^^^ rotr32 18 w ^^^ w / 2 ^ 3

def smallSigma1 (w : Nat) : Nat := rotr32 17 w ^^^ rotr32 19 w ^^^ w / 2 ^ 10

def sha256Ch (e f g : Nat) : Nat := (e &&& f) ^^^ ((4294967295 - e) &&& g)

def sha256Maj (a b c : Nat) : Nat := (a &&& b) ^^^ (a &&& c) ^^^ (b &&& c)

structure Sha256State where
  a : Nat
  b : Nat
  c : Nat
  d : Nat
  e : Nat
  f : Nat
  g : Nat
  h : Nat
deriving DecidableEq, Repr

def sha256K : List Nat :=
  [1116352408, 1899447441, 3049323471, 3921009573, 961987163, 1508970993,
   2453635748, 2870763221, 3624381080, 310598401, 607225278, 1426881987,
   1925078388, 2162078206, 2614888103, 3248222580, 3835390401, 4022224774,
   264347078, 604807628, 770255983, 1249150122, 1555081692, 1996064986,
   2554220882, 2821834349, 2952996808, 3210313671, 3336571891, 3584528711,
   113926993, 338241895, 666307205, 773529912, 1294757372, 1396182291,
   1695183700, 1986661051, 2177026350, 2456956037, 2730485921, 2820302411,
   3259730800, 3345764771, 3516065817, 3600352804, 4094571909, 275423344,
   430227734, 506948616, 659060556, 883997877, 958139571, 1322822218,
   1537002063, 1747873779, 1955562222, 2024104815, 2227730452, 2361852424,
   2428436474, 2756734187, 3204031479, 3329325298]

def sha256Init : Sha256State :=
  ⟨1779033703, 3144134277, 1013904242, 2773480762,
   1359893119, 2600822924, 528734635, 1541459225⟩

/-- Big-endian 32-bit words from bytes. -/
def toWords : List Nat → List Nat
  | a :: b :: c :: d :: r => (((a * 256 + b) * 256 + c) * 256 + d) :: toWords r
  | _ => []

/-- Message-schedule extension (from 16 to 64 words; fuel 48). -/
def extendW : Nat → List Nat → List Nat
  | 0, ws => ws
  | fuel + 1, ws =>
    let i := ws.length
    extendW fuel (ws ++ [w32 (smallSigma1 (ws.getD (i - 2) 0) + ws.getD (i - 7) 0 +
      smallSigma0 (ws.getD (i - 15) 0) + ws.getD (i - 16) 0)])

def sha256Round (s : Sha256State) (k w : Nat) : Sha256State :=
  let t1 := w32 (s.h + bigSigma1 s.e + sha256Ch s.e s.f s.g + k + w)
  let t2 := w32 (bigSigma0 s.a + sha256Maj s.a s.b s.c)
  ⟨w32 (t1 + t2), s.a, s.b, s.c, w32 (s.d + t1), s.e, s.f, s.g⟩

def sha256Rounds (s : Sha256State) : List (Nat × Nat) → Sha256State
  | [] => s
  | kw :: r => sha256Rounds (sha256Round s kw.1 kw.2) r

def sha256Compress (s : Sha256State) (block : List Nat) : Sha256State :=
  let ws := extendW 48 (toWords block)
  let t := sha256Rounds s (sha256K.zip ws)
  ⟨w32 (s.a + t.a), w32 (s.b + t.b), w32 (s.c + t.c), w32 (s.d + t.d),
   w32 (s.e + t.e), w32 (s.f + t.f), w32 (s.g + t.g), w32 (s.h + t.h)⟩

def beBytes8 (n : Nat) : List Nat :=
  [n / 2 ^ 56 % 256, n / 2 ^ 48 % 256, n / 2 ^ 40 % 256, n / 2 ^ 32 % 256,
   n / 2 ^ 24 % 256, n / 2 ^ 16 % 256, n / 2 ^ 8 % 256, n % 256]

def beBytes4 (n : Nat) : List Nat :=
  [n / 2 ^ 24 % 256, n / 2 ^ 16 % 256, n / 2 ^ 8 % 256, n % 256]

/-- FIPS 180-4 padding: `0x80`, zeros, 64-bit big-endian bit length. -/
def sha256Pad (msg : List Nat) : List Nat :=
  msg ++ 128 :: List.replicate ((64 - (msg.length + 9) % 64) % 64) 0 ++
    beBytes8 (8 * msg.length)

def sha256Blocks : Nat → Sha256State → List Nat → Sha256State
  | 0, s, _ => s
  | fuel + 1, s, l => sha256Blocks fuel (sha256Compress s (l.take 64)) (l.drop 64)

/-- SHA-256 of a byte list (32-byte digest). -/
def sha256 (msg : List Nat) : List Nat :=
  let p := sha256Pad msg
  let s := sha256Blocks (p.length / 64) sha256Init p
  beBytes4 s.a ++ beBytes4 s.b ++ beBytes4 s.c ++ beBytes4 s.d ++
    beBytes4 s.e ++ beBytes4 s.f ++ beBytes4 s.g ++ beBytes4 s.h

/-! ## Hex codec (`hex` crate) -/

def hexCharL (n : Nat) : Nat := if n < 10 then 48 + n else 87 + n

/-- `hex::encode`: lowercase hex text (as ASCII byte values). -/
def hexEncode (bs : List Nat) : List Nat :=
  (bs.map fun b => [hexCharL (b / 16 % 16), hexCharL (b % 16)]).flatten

def hexDigit (c : Nat) : Option Nat :=
  if 48 ≤ c ∧ c ≤ 57 then some (c - 48)
  else if 97 ≤ c ∧ c ≤ 102 then some (c - 87)
  else if 65 ≤ c ∧ c ≤ 70 then some (c - 55)
  else none

/-- `hex::decode`: requires even length, accepts both cases. -/
def hexDecode : List Nat → Option (List Nat)
  | [] => some []
  | [_] => none
  | c1 :: c2 :: r =>
    match hexDigit c1, hexDigit c2, hexDecode r with
    | some h1, some h2, some rest => some ((16 * h1 + h2) :: rest)
    | _, _, _ => none

/-- `str::trim_start_matches("0x")`: strips every repeated leading `"0x"`. -/
def trim0x : List Nat → List Nat
  | 48 :: 120 :: r => trim0x r
  | l => l

/-! ## Error type (`src/blockchain/error.rs`) -/

inductive BlockchainError where
  | HttpRequest (msg : String)
  | InvalidResponse (msg : String)
  | ValidationFailed (msg : String)
  | AccountNotFound (address : String)
  | InsufficientBalance (required available : String)
  | NetworkRetryExhausted (attempts : Nat)
  | Serialization (msg : String)
  | Configuration (msg : String)
deriving DecidableEq, Repr

/-! ## Request types and argument normalization
(`src/blockchain/types.rs`, `src/blockchain/client.rs`) -/

/-- The untagged `Argument` union: JSON string, JSON number (`i64`),
`{"b58": …}`, `{"hex": …}`, `{"utf8": …}`. -/
inductive Argument where
  | str (s : List Nat)
  | num (n : Int)
  | b58 (text : List Nat)
  | hex (text : List Nat)
  | utf8 (text : List Nat)
deriving DecidableEq, Repr

/-- Decimal rendering of a natural number (ASCII bytes). -/
def natToDecimalBytes (n : Nat) : List Nat :=
  if n = 0 then [48] else (natDigits 10 n).reverse.map (fun d => d + 48)

/-- `i64::to_string` as ASCII bytes. -/
def intToDecimalBytes (i : Int) : List Nat :=
  if i < 0 then 45 :: natToDecimalBytes i.natAbs else natToDecimalBytes i.natAbs

/-- Per-argument byte normalization, exactly the `match arg` in
`create_transaction_blob` (`src/blockchain/client.rs:44-53`). -/
def decodeArgument : Argument → Except BlockchainError (List Nat)
  | .str s => .ok s
  | .num n => .ok (intToDecimalBytes n)
  | .b58 t =>
    match b58Decode t with
    | some v => .ok v
    | none => .error (.ValidationFailed "invalid base58 arg")
  | .hex t =>
    match hexDecode (trim0x t) with
    | some v => .ok v
    | none => .error (.ValidationFailed "invalid hex arg")
  | .utf8 t => .ok t

/-- `collect::<Result<Vec<_>>>`: short-circuits at the first failure. -/
def decodeArgs : List Argument → Except BlockchainError (List (List Nat))
  | [] => .ok []
  | a :: l =>
    match decodeArgument a, decodeArgs l with
    | .ok b, .ok r => .ok (b :: r)
    | .error e, _ => .error e
    | .ok _, .error e => .error e

structure TransactionRequest where
  signer : List Nat
  contract : List Nat
  function : List Nat
  args : List Argument
  attached_symbol : Option (List Nat)
  attached_amount : Option (List Nat)
  nonce : Option Int
deriving DecidableEq, Repr

structure UnsignedTx where
  tx_blob : List Nat
  signing_hash : List Nat
deriving DecidableEq, Repr

structure UnsignedTransactionBlob where
  blob : List Nat
  signing_payload : List Nat
  transaction_hash : List Nat
  tx_bytes : List Nat
deriving DecidableEq, Repr

structure FinalizedTx where
  packed : List Nat
  hash : List Nat
deriving DecidableEq, Repr

/-- The ASCII bytes of the fixed op literal `"call"`. -/
def opCall : List Nat := [99, 97, 108, 108]

/-- `build_unsigned` (`src/wasm/tx.rs:74-112`).  The clock read used when no
nonce is supplied is passed explicitly as `now_nanos` (state-passing model of
`SystemTime::now()…as_nanos()`). -/
def build_unsigned (signer_pk contract fnName : List Nat)
    (args : List (List Nat)) (attached_symbol attached_amount : Option (List Nat))
    (nonce : Option Int) (now_nanos : Int) : Except String UnsignedTx :=
  let nonce_val : Int :=
    match nonce with
    | some n => n
    | none => now_nanos
  let action : TxAction :=
    ⟨args, contract, fnName, opCall, attached_symbol, attached_amount⟩
  let tx : Tx := ⟨action, nonce_val, signer_pk⟩
  let tx_encoded := encodeTx tx
  .ok ⟨tx_encoded, sha256 tx_encoded⟩

/-- `create_transaction_blob` (`src/blockchain/client.rs:36-75`). -/
def create_transaction_blob (now_nanos : Int) (req : TransactionRequest) :
    Except BlockchainError UnsignedTransactionBlob :=
  match b58Decode req.signer with
  | none => .error (.ValidationFailed "invalid signer base58")
  | some signer_pk =>
    match decodeArgs req.args with
    | .error e => .error e
    | .ok args =>
      match build_unsigned signer_pk req.contract req.function args
          req.attached_symbol req.attached_amount req.nonce now_nanos with
      | .error e => .error (.ValidationFailed e)
      | .ok unsigned =>
        .ok ⟨b58Encode unsigned.tx_blob, hexEncode unsigned.signing_hash,
          b58Encode unsigned.signing_hash, unsigned.tx_blob⟩

/-- `finalize_transaction` (`src/wasm/tx.rs:59-72`). -/
def finalize_transaction (tx_blob_b58 signature_b58 : List Nat) :
    Except String FinalizedTx :=
  match b58Decode tx_blob_b58 with
  | none => .error "invalid blob base58"
  | some tx_encoded =>
    match b58Decode signature_b58 with
    | none => .error "invalid signature base58"
    | some signature =>
      match fromSliceTx tx_encoded with
      | none => .error "failed to decode tx"
      | some tx =>
        .ok ⟨encodeTxU ⟨sha256 tx_encoded, signature, tx⟩, sha256 tx_encoded⟩

/-! ## HTTP model

The transport is abstracted as an oracle giving the outcome of each attempt;
a response body is carried as the result of parsing its text as JSON
(`none` = the text was not valid JSON), since the JSON grammar itself is
`serde_json`'s concern, not this repository's. -/

inductive Json where
  | str (s : String)
  | num (n : Int)
  | bool (b : Bool)
  | null
  | arr (items : List Json)
  | obj (fields : List (String × Json))

/-- `serde_json::Value::get` on an object (first matching key). -/
def Json.get? (j : Json) (key : String) : Option Json :=
  match j with
  | .obj fields => (fields.find? (fun kv => kv.1 == key)).map (·.2)
  | _ => none

def Json.asStr? : Json → Option String
  | .str s => some s
  | _ => none

def Json.asU64? : Json → Option Nat
  | .num n => if 0 ≤ n ∧ n < 2 ^ 64 then some n.toNat else none
  | _ => none

/-- `api_response.get("error").and_then(|e| e.as_str())`. -/
def jsonErrorField (j : Json) : Option String := (j.get? "error").bind Json.asStr?

/-- `Transaction` from `src/blockchain/types.rs` (read-path shape).
`fromAddr`/`toAddr`/`tx_type` stand for the serde fields
`from`/`to`/`type` (Lean keywords). -/
structure Transaction where
  hash : String
  fromAddr : String
  toAddr : String
  amount : String
  symbol : String
  fee : String
  nonce : Nat
  timestamp : Nat
  signature : String
  tx_type : String
deriving DecidableEq, Repr

/-- serde-derived decoding of a `Transaction` from JSON. -/
def jsonToTransaction (j : Json) : Option Transaction := do
  let hash ← (j.get? "hash").bind Json.asStr?
  let fromAddr ← (j.get? "from").bind Json.asStr?
  let toAddr ← (j.get? "to").bind Json.asStr?
  let amount ← (j.get? "amount").bind Json.asStr?
  let symbol ← (j.get? "symbol").bind Json.asStr?
  let fee ← (j.get? "fee").bind Json.asStr?
  let nonce ← (j.get? "nonce").bind Json.asU64?
  let timestamp ← (j.get? "timestamp").bind Json.asU64?
  let signature ← (j.get? "signature").bind Json.asStr?
  let tx_type ← (j.get? "type").bind Json.asStr?
  pure ⟨hash, fromAddr, toAddr, amount, symbol, fee, nonce, timestamp, signature, tx_type⟩

/-- Outcome of one HTTP send: transport failure, or a status code with the
JSON-parse result of the body text. -/
inductive HttpOutcome where
  | transportError (msg : String)
  | response (status : Nat) (body : Option Json)

/-- `reqwest::StatusCode::is_success`: `200..=299`. -/
def isSuccessStatus (s : Nat) : Bool := decide (200 ≤ s) && decide (s < 300)

/-- The request object built by each attempt of `retry_request`
(`src/blockchain/client.rs:275-291`): URL, headers, optional JSON body.
The only header ever attached is `Content-Type: application/json`. -/
structure BuiltRequest where
  url : String
  headers : List (String × String)
  body : Option Json

def buildRetryRequest (base_url path : String) (body : Option Json) : BuiltRequest :=
  ⟨base_url ++ path, [("Content-Type", "application/json")], body⟩

/-- The request built by `submit_signed_transaction`
(`src/blockchain/client.rs:85-89`): plain-text body, one header. -/
structure BuiltTextRequest where
  url : String
  headers : List (String × String)
  body : List Nat

def buildSubmitRequest (url : String) (txu_b58 : List Nat) : BuiltTextRequest :=
  ⟨url ++ "/api/tx/submit", [("Content-Type", "text/plain")], txu_b58⟩

/-- One attempt of the `retry_request` closure: method dispatch, send,
success-status check (`src/blockchain/client.rs:274-305`). -/
def attemptRun (method : String) (outcome : HttpOutcome) :
    Except BlockchainError (Nat × Option Json) :=
  if method ≠ "GET" ∧ method ≠ "POST" then
    .error (.Configuration ("unsupported method: " ++ method))
  else
    match outcome with
    | .transportError m => .error (.HttpRequest m)
    | .response st body =>
      if isSuccessStatus st then .ok (st, body)
      else .error (.InvalidResponse ("HTTP " ++ toString st ++ ": request failed"))

/-- `u64` saturating multiplication (`checked_mul` with `u64::MAX` fallback in
`tokio_retry::strategy::ExponentialBackoff`). -/
def satMulU64 (a b : Nat) : Nat := if a * b < 2 ^ 64 then a * b else 2 ^ 64 - 1

/-- `ExponentialBackoff::from_millis(base)`: the `n`-th delay (0-based) in
milliseconds; `current` starts at `base` and is multiplied by `base` each
step. -/
def backoffCurrent (base : Nat) : Nat → Nat
  | 0 => base
  | n + 1 => satMulU64 (backoffCurrent base n) base

/-- `ExponentialBackoff::from_millis(100).map(jitter).take(3)`: the three
delays of the retry strategy, each passed through the jitter transform
(`jitterF n d` models the random multiplicative jitter applied to the `n`-th
delay `d`). -/
def retryDelays (jitterF : Nat → Nat → Nat) : List Nat :=
  (List.range 3).map fun n => jitterF n (backoffCurrent 100 n)

/-- `tokio_retry::Retry::spawn`: run the action once, then retry once per
remaining strategy item; returns the result, the total number of attempts
performed, and the delays actually slept between attempts. -/
def retrySpawnGo {α : Type} (run : Nat → Except BlockchainError α) :
    List Nat → Nat → List Nat → Except BlockchainError α × Nat × List Nat
  | delays, k, slept =>
    match run k with
    | .ok a => (.ok a, k + 1, slept)
    | .error e =>
      match delays with
      | [] => (.error e, k + 1, slept)
      | d :: ds => retrySpawnGo run ds (k + 1) (slept ++ [d])

/-- `retry_request` (`src/blockchain/client.rs:264-312`): bounded retry over
the oracle of attempt outcomes; any overall failure is mapped to
`NetworkRetryExhausted { attempts: 3 }`. -/
def retry_request (oracle : Nat → HttpOutcome) (jitterF : Nat → Nat → Nat)
    (method : String) :
    Except BlockchainError (Nat × Option Json) × Nat × List Nat :=
  let r := retrySpawnGo (fun k => attemptRun method (oracle k)) (retryDelays jitterF) 0 []
  (r.1.mapError (fun _ => .NetworkRetryExhausted 3), r.2)

/-- `parse_response` (`src/blockchain/client.rs:314-330`): JSON-parse of the
body text (the parse itself is the oracle's `body` field). -/
def parse_response (r : Nat × Option Json) : Except BlockchainError Json :=
  match r.2 with
  | some j => .ok j
  | none =>
    .error (.InvalidResponse ("failed to parse response (status " ++ toString r.1 ++ ")"))

/-- Response handling of `get_transaction` (`src/blockchain/client.rs:179-192`). -/
def getTransactionFromJson (api : Json) : Except BlockchainError Transaction :=
  if jsonErrorField api = some "not_found" then
    .error (.InvalidResponse "transaction not found")
  else
    match api.get? "transaction" with
    | none => .error (.InvalidResponse "missing transaction field")
    | some tj =>
      match jsonToTransaction tj with
      | some t => .ok t
      | none => .error (.InvalidResponse "failed to parse transaction")

/-- `get_transaction` (`src/blockchain/client.rs:173-192`). -/
def get_transaction (oracle : Nat → HttpOutcome) (jitterF : Nat → Nat → Nat)
    (tx_hash : String) : Except BlockchainError Transaction :=
  match (retry_request oracle jitterF "GET").1 with
  | .error e => .error e
  | .ok r =>
    match parse_response r with
    | .error e => .error e
    | .ok api => getTransactionFromJson api

structure SignedTransaction where
  transaction : List Nat
  signature : List Nat
  network : Option String
deriving DecidableEq, Repr

structure SubmitResponse where
  error : String
  tx_hash : Option (List Nat)
deriving DecidableEq, Repr

/-- `submit_signed_transaction` (`src/blockchain/client.rs:78-104`): finalize,
send once (no retry loop), classify; also returns how many HTTP attempts were
issued. -/
def submit_signed_transaction (outcome : HttpOutcome) (tx : SignedTransaction) :
    Except BlockchainError SubmitResponse × Nat :=
  match finalize_transaction tx.transaction tx.signature with
  | .error e => (.error (.ValidationFailed e), 0)
  | .ok fin =>
    match outcome with
    | .transportError m => (.error (.HttpRequest m), 1)
    | .response st body =>
      if isSuccessStatus st then
        match body with
        | none =>
          (.error (.InvalidResponse ("failed to parse response (status " ++
            toString st ++ ")")), 1)
        | some j =>
          let err := ((j.get? "error").bind Json.asStr?).getD "unknown"
          (.ok ⟨err, if err = "ok" then some (b58Encode fin.hash) else none⟩, 1)
      else (.error (.InvalidResponse ("HTTP " ++ toString st)), 1)

/-! ## Inversion and well-formedness of `create_transaction_blob` -/

/-- The nonce actually used by `build_unsigned`. -/
def nonceVal (nonce : Option Int) (now_nanos : Int) : Int :=
  match nonce with
  | some n => n
  | none => now_nanos

/-- The canonical transaction assembled by `create_transaction_blob` from the
decoded signer and args. -/
def assembledTx (req : TransactionRequest) (spk : List Nat)
    (args : List (List Nat)) (now_nanos : Int) : Tx :=
  ⟨⟨args, req.contract, req.function, opCall, req.attached_symbol,
    req.attached_amount⟩, nonceVal req.nonce now_nanos, spk⟩

theorem create_transaction_blob_ok (now_nanos : Int) (req : TransactionRequest)
    (blob : UnsignedTransactionBlob)
    (h : create_transaction_blob now_nanos req = .ok blob) :
    ∃ spk args,
      b58Decode req.signer = some spk ∧
      decodeArgs req.args = .ok args ∧
      blob = ⟨b58Encode (encodeTx (assembledTx req spk args now_nanos)),
        hexEncode (sha256 (encodeTx (assembledTx req spk args now_nanos))),
        b58Encode (sha256 (encodeTx (assembledTx req spk args now_nanos))),
        encodeTx (assembledTx req spk args now_nanos)⟩ := by
  rw [create_transaction_blob] at h
  cases hs : b58Decode req.signer with
  | none => rw [hs] at h; cases h
  | some spk =>
    rw [hs] at h
    cases ha : decodeArgs req.args with
    | error e => rw [ha] at h; cases h
    | ok args =>
      rw [ha] at h
      have h' : Except.ok (ε := BlockchainError)
          (⟨b58Encode (encodeTx (assembledTx req spk args now_nanos)),
            hexEncode (sha256 (encodeTx (assembledTx req spk args now_nanos))),
            b58Encode (sha256 (encodeTx (assembledTx req spk args now_nanos))),
            encodeTx (assembledTx req spk args now_nanos)⟩ :
              UnsignedTransactionBlob) = .ok blob := h
      injection h' with h''
      exact ⟨spk, args, rfl, rfl, h''.symm⟩

/-- Source well-formedness of one argument: text forms hold byte values. -/
def WfArgSource : Argument → Prop
  | .str s => WfBytes s
  | .utf8 t => WfBytes t
  | _ => True

instance (a : Argument) : Decidable (WfArgSource a) := by
  cases a <;> (unfold WfArgSource; infer_instance)

/-- Well-formedness of a request: every Rust string field, modelled as a byte
list, holds byte values. -/
def WfReq (req : TransactionRequest) : Prop :=
  WfBytes req.contract ∧ WfBytes req.function ∧
  (∀ s, req.attached_symbol = some s → WfBytes s) ∧
  (∀ s, req.attached_amount = some s → WfBytes s) ∧
  ∀ a ∈ req.args, WfArgSource a

theorem wfBytes_natToDecimalBytes (n : Nat) : WfBytes (natToDecimalBytes n) := by
  intro x hx
  rw [natToDecimalBytes] at hx
  split at hx
  · simp only [List.mem_singleton] at hx
    omega
  · rcases List.mem_map.mp hx with ⟨d, hd, rfl⟩
    have := mem_natDigitsF_lt 10 (by omega) _ _ d (List.mem_reverse.mp hd)
    omega

theorem wfBytes_intToDecimalBytes (i : Int) : WfBytes (intToDecimalBytes i) := by
  intro x hx
  rw [intToDecimalBytes] at hx
  split at hx
  · rcases List.mem_cons.mp hx with h | h
    · omega
    · exact wfBytes_natToDecimalBytes _ x h
  · exact wfBytes_natToDecimalBytes _ x hx

theorem hexDigit_le (c d : Nat) (h : hexDigit c = some d) : d < 16 := by
  rw [hexDigit] at h
  split at h
  · injection h with h'; omega
  · split at h
    · injection h with h'; omega
    · split at h
      · injection h with h'; omega
      · cases h

theorem wfBytes_hexDecode :
    ∀ l bs, hexDecode l = some bs → WfBytes bs := by
  intro l
  induction l using hexDecode.induct with
  | case1 =>
    intro bs h
    injection h with h'
    subst h'
    intro x hx
    cases hx
  | case2 c =>
    intro bs h
    cases h
  | case3 c1 c2 r h1 h2 rest hr hh2 hh1 ih =>
    intro bs h
    rw [hexDecode, hh1, hh2, hr] at h
    injection h with h'
    subst h'
    intro x hx
    rcases List.mem_cons.mp hx with hx | hx
    · have e1 := hexDigit_le c1 h1 hh1
      have e2 := hexDigit_le c2 h2 hh2
      omega
    · exact ih rest hr x hx
  | case4 c1 c2 r hcon _ =>
    intro bs h
    rw [hexDecode] at h
    cases hh1 : hexDigit c1 with
    | none =>
      rw [hh1] at h
      cases h
    | some h1 =>
      cases hh2 : hexDigit c2 with
      | none =>
        rw [hh1, hh2] at h
        cases h
      | some h2 =>
        cases hr : hexDecode r with
        | none =>
          rw [hh1, hh2, hr] at h
          cases h
        | some rest => exact (hcon h1 h2 rest hh1 hh2 hr).elim

theorem decodeArgument_wf (a : Argument) (hwf : WfArgSource a) (bs : List Nat)
    (h : decodeArgument a = .ok bs) : WfBytes bs := by
  cases a with
  | str s =>
    injection h with h'
    subst h'
    exact hwf
  | num n =>
    injection h with h'
    subst h'
    exact wfBytes_intToDecimalBytes n
  | b58 t =>
    rw [decodeArgument] at h
    cases hd : b58Decode t with
    | none => rw [hd] at h; cases h
    | some v =>
      rw [hd] at h
      injection h with h'
      subst h'
      exact b58Decode_lt t v hd
  | hex t =>
    rw [decodeArgument] at h
    cases hd : hexDecode (trim0x t) with
    | none => rw [hd] at h; cases h
    | some v =>
      rw [hd] at h
      injection h with h'
      subst h'
      exact wfBytes_hexDecode _ v hd
  | utf8 t =>
    injection h with h'
    subst h'
    exact hwf

theorem decodeArgs_mem (l : List Argument) (r : List (List Nat))
    (h : decodeArgs l = .ok r) :
    ∀ b ∈ r, ∃ a ∈ l, decodeArgument a = .ok b := by
  induction l generalizing r with
  | nil =>
    injection h with h'
    subst h'
    intro b hb
    cases hb
  | cons a t ih =>
    rw [decodeArgs] at h
    cases h1 : decodeArgument a with
    | error e => rw [h1] at h; cases h
    | ok b0 =>
      cases h2 : decodeArgs t with
      | error e => rw [h1, h2] at h; cases h
      | ok r0 =>
        rw [h1, h2] at h
        injection h with h'
        subst h'
        intro b hb
        rcases List.mem_cons.mp hb with hb | hb
        · exact ⟨a, List.mem_cons_self a t, hb ▸ h1⟩
        · rcases ih r0 h2 b hb with ⟨a', ha', hd⟩
          exact ⟨a', List.mem_cons_of_mem _ ha', hd⟩

theorem wfTx_assembled (req : TransactionRequest) (hwf : WfReq req)
    (spk : List Nat) (hspk : b58Decode req.signer = some spk)
    (args : List (List Nat)) (hargs : decodeArgs req.args = .ok args)
    (now_nanos : Int) : WfTx (assembledTx req spk args now_nanos) := by
  obtain ⟨hcon, hfn, hsym, hamt, hargsrc⟩ := hwf
  refine ⟨?_, hcon, hfn, show WfBytes opCall by decide, hsym, hamt,
    b58Decode_lt _ _ hspk⟩
  intro a ha
  rcases decodeArgs_mem req.args args hargs a ha with ⟨src, hsrc, hd⟩
  exact decodeArgument_wf src (hargsrc src hsrc) a hd

/-! ## Claim theorems -/

/-- **C1.** For every transaction request whose `build_unsigned` succeeds,
calling `finalize_transaction` on the Base58 blob of the resulting
`UnsignedTransactionBlob` together with any valid-Base58 signature succeeds,
and the 32-byte hash it returns (and stores in the packed wire object) equals
SHA-256 of the original encoded transaction bytes, i.e. the same digest whose
Base58 rendering is the blob's `transaction_hash`. -/
theorem c1_finalize_correctness (now_nanos : Int) (req : TransactionRequest)
    (hwf : WfReq req) (blob : UnsignedTransactionBlob)
    (hb : create_transaction_blob now_nanos req = .ok blob)
    (sig sigBytes : List Nat) (hsig : b58Decode sig = some sigBytes) :
    ∃ fin : FinalizedTx,
      finalize_transaction blob.blob sig = .ok fin ∧
      fin.hash = sha256 blob.tx_bytes ∧
      blob.transaction_hash = b58Encode fin.hash ∧
      ∃ t : Tx, fromSliceTx blob.tx_bytes = some t ∧
        decodeTxU fin.packed = some (⟨fin.hash, sigBytes, t⟩, []) := by
  obtain ⟨spk, args, hspk, hargs, rfl⟩ :=
    create_transaction_blob_ok now_nanos req blob hb
  have hwftx := wfTx_assembled req hwf spk hspk args hargs now_nanos
  have hewf : WfBytes (encodeTx (assembledTx req spk args now_nanos)) :=
    wfBytes_encodeTx _ hwftx
  have hdec := b58Decode_b58Encode _ hewf
  have hfs := fromSliceTx_encodeTx (assembledTx req spk args now_nanos)
  refine ⟨⟨encodeTxU ⟨sha256 (encodeTx (assembledTx req spk args now_nanos)),
      sigBytes, assembledTx req spk args now_nanos⟩,
      sha256 (encodeTx (assembledTx req spk args now_nanos))⟩,
    ?_, rfl, rfl, assembledTx req spk args now_nanos, hfs, ?_⟩
  · simp only [finalize_transaction, hdec, hsig, hfs]
  · rw [show encodeTxU ⟨sha256 (encodeTx (assembledTx req spk args now_nanos)),
        sigBytes, assembledTx req spk args now_nanos⟩ =
      encodeTxU ⟨sha256 (encodeTx (assembledTx req spk args now_nanos)),
        sigBytes, assembledTx req spk args now_nanos⟩ ++ [] by simp]
    rw [decodeTxU_encodeTxU]

/-- A concrete sample request: signer text `"1"`, empty contract and function
names, no args, explicit nonce `0`. -/
def sampleReq : TransactionRequest :=
  ⟨[49], [], [], [], none, none, some 0⟩

theorem sampleReq_wf : WfReq sampleReq := by
  refine ⟨by decide, by decide, ?_, ?_, ?_⟩
  · intro s h; cases h
  · intro s h; cases h
  · intro a ha; cases ha

/-- Witness for C1 at a concrete request and signature. -/
theorem c1_finalize_correctness_witness :
    WfReq sampleReq ∧
    ∃ blob, create_transaction_blob 0 sampleReq = .ok blob ∧
      b58Decode [49] = some [0] ∧
      ∃ fin : FinalizedTx,
        finalize_transaction blob.blob [49] = .ok fin ∧
        fin.hash = sha256 blob.tx_bytes ∧
        blob.transaction_hash = b58Encode fin.hash ∧
        ∃ t : Tx, fromSliceTx blob.tx_bytes = some t ∧
          decodeTxU fin.packed = some (⟨fin.hash, [0], t⟩, []) := by
  refine ⟨sampleReq_wf, _, rfl, rfl, ?_⟩
  exact c1_finalize_correctness 0 sampleReq sampleReq_wf _ rfl [49] [0] rfl

/-- **C2.** For every `UnsignedTransactionBlob` produced by
`create_transaction_blob`, `signing_payload` and `transaction_hash` encode
the same 32-byte SHA-256 digest of the canonical transaction bytes, differing
only in text encoding (hex vs Base58); neither depends on any signature
(`create_transaction_blob` takes no signature input at all). -/
theorem c2_payload_and_hash_same_digest (now_nanos : Int)
    (req : TransactionRequest) (blob : UnsignedTransactionBlob)
    (hb : create_transaction_blob now_nanos req = .ok blob) :
    blob.signing_payload = hexEncode (sha256 blob.tx_bytes) ∧
    blob.transaction_hash = b58Encode (sha256 blob.tx_bytes) := by
  obtain ⟨spk, args, hspk, hargs, rfl⟩ :=
    create_transaction_blob_ok now_nanos req blob hb
  exact ⟨rfl, rfl⟩

/-- Witness for C2 at a concrete request. -/
theorem c2_payload_and_hash_same_digest_witness :
    ∃ blob, create_transaction_blob 0 sampleReq = .ok blob ∧
      blob.signing_payload = hexEncode (sha256 blob.tx_bytes) ∧
      blob.transaction_hash = b58Encode (sha256 blob.tx_bytes) :=
  ⟨_, rfl, c2_payload_and_hash_same_digest 0 sampleReq _ rfl⟩

theorem decodeArgs_congr :
    ∀ l₁ l₂ : List Argument,
      List.Forall₂ (fun a b => ∃ bs, decodeArgument a = .ok bs ∧
        decodeArgument b = .ok bs) l₁ l₂ →
      decodeArgs l₁ = decodeArgs l₂ := by
  intro l₁ l₂ h
  induction h with
  | nil => rfl
  | cons hab _ ih =>
    obtain ⟨bs, ha, hb⟩ := hab
    rw [decodeArgs, decodeArgs, ha, hb, ih]

/-- **C5.** Two transaction requests identical except in the source form of
their arguments, where each pair of corresponding arguments decodes to the
same byte sequence, produce identical decoded argument byte lists and
identical results of `create_transaction_blob` (hence identical encoded
Action bytes, blobs and digests). -/
theorem c5_argument_normalization (now_nanos : Int)
    (req₁ req₂ : TransactionRequest)
    (hsigner : req₁.signer = req₂.signer)
    (hcon : req₁.contract = req₂.contract)
    (hfn : req₁.function = req₂.function)
    (hsym : req₁.attached_symbol = req₂.attached_symbol)
    (hamt : req₁.attached_amount = req₂.attached_amount)
    (hnonce : req₁.nonce = req₂.nonce)
    (hargs : List.Forall₂ (fun a b => ∃ bs, decodeArgument a = .ok bs ∧
      decodeArgument b = .ok bs) req₁.args req₂.args) :
    decodeArgs req₁.args = decodeArgs req₂.args ∧
    create_transaction_blob now_nanos req₁ = create_transaction_blob now_nanos req₂ := by
  obtain ⟨s₁, c₁, f₁, a₁, y₁, m₁, n₁⟩ := req₁
  obtain ⟨s₂, c₂, f₂, a₂, y₂, m₂, n₂⟩ := req₂
  simp only at hsigner hcon hfn hsym hamt hnonce hargs
  subst hsigner hcon hfn hsym hamt hnonce
  have hda := decodeArgs_congr a₁ a₂ hargs
  refine ⟨hda, ?_⟩
  rw [create_transaction_blob, create_transaction_blob]
  simp only [hda]

/-- Witness for C5: the hex form `"0x41"` and the plain-string form `"A"`
decode to the same single byte `0x41`. -/
theorem c5_argument_normalization_witness :
    decodeArgs [Argument.hex [48, 120, 52, 49]] = decodeArgs [Argument.str [65]] ∧
    create_transaction_blob 0 ⟨[49], [], [], [Argument.hex [48, 120, 52, 49]], none, none, some 0⟩ =
      create_transaction_blob 0 ⟨[49], [], [], [Argument.str [65]], none, none, some 0⟩ :=
  c5_argument_normalization 0
    ⟨[49], [], [], [Argument.hex [48, 120, 52, 49]], none, none, some 0⟩
    ⟨[49], [], [], [Argument.str [65]], none, none, some 0⟩
    rfl rfl rfl rfl rfl rfl
    (List.Forall₂.cons ⟨[65], rfl, rfl⟩ List.Forall₂.nil)

theorem decodeArgument_error_validation (a : Argument) (e : BlockchainError)
    (h : decodeArgument a = .error e) : ∃ msg, e = .ValidationFailed msg := by
  cases a with
  | str s => cases h
  | num n => cases h
  | b58 t =>
    rw [decodeArgument] at h
    cases hd : b58Decode t with
    | none =>
      rw [hd] at h
      injection h with h'
      exact ⟨_, h'.symm⟩
    | some v => rw [hd] at h; cases h
  | hex t =>
    rw [decodeArgument] at h
    cases hd : hexDecode (trim0x t) with
    | none =>
      rw [hd] at h
      injection h with h'
      exact ⟨_, h'.symm⟩
    | some v => rw [hd] at h; cases h
  | utf8 t => cases h

theorem decodeArgs_ok_iff :
    ∀ l : List Argument,
      (∃ r, decodeArgs l = .ok r) ↔ ∀ a ∈ l, ∃ bs, decodeArgument a = .ok bs := by
  intro l
  induction l with
  | nil =>
    constructor
    · intro _ a ha; cases ha
    · intro _; exact ⟨[], rfl⟩
  | cons a t ih =>
    constructor
    · intro ⟨r, hr⟩ x hx
      rw [decodeArgs] at hr
      cases h1 : decodeArgument a with
      | error e => rw [h1] at hr; cases hr
      | ok b0 =>
        cases h2 : decodeArgs t with
        | error e => rw [h1, h2] at hr; cases hr
        | ok r0 =>
          rcases List.mem_cons.mp hx with hx | hx
          · exact ⟨b0, hx ▸ h1⟩
          · exact (ih.mp ⟨r0, h2⟩) x hx
    · intro hall
      obtain ⟨b0, h1⟩ := hall a (List.mem_cons_self a t)
      obtain ⟨r0, h2⟩ := ih.mpr fun x hx => hall x (List.mem_cons_of_mem _ hx)
      exact ⟨b0 :: r0, by rw [decodeArgs, h1, h2]⟩

theorem decodeArgs_error_mem (l : List Argument) (e : BlockchainError)
    (h : decodeArgs l = .error e) : ∃ a ∈ l, decodeArgument a = .error e := by
  induction l with
  | nil => cases h
  | cons a t ih =>
    rw [decodeArgs] at h
    cases h1 : decodeArgument a with
    | error e0 =>
      rw [h1] at h
      cases h2 : decodeArgs t with
      | error e1 =>
        rw [h2] at h
        injection h with h'
        exact ⟨a, List.mem_cons_self a t, h' ▸ h1⟩
      | ok r0 =>
        rw [h2] at h
        injection h with h'
        exact ⟨a, List.mem_cons_self a t, h' ▸ h1⟩
    | ok b0 =>
      rw [h1] at h
      cases h2 : decodeArgs t with
      | error e1 =>
        rw [h2] at h
        injection h with h'
        subst h'
        rcases ih h2 with ⟨x, hx, hd⟩
        exact ⟨x, List.mem_cons_of_mem _ hx, hd⟩
      | ok r0 => rw [h2] at h; cases h

/-- **C6.** `create_transaction_blob` succeeds iff the signer decodes as
Base58 and every tagged argument decodes (regardless of contract name,
function name, or argument count), and every error it returns is of the
`ValidationFailed` kind. -/
theorem c6_validation_failed_iff (now_nanos : Int) (req : TransactionRequest) :
    ((∃ blob, create_transaction_blob now_nanos req = .ok blob) ↔
      ((∃ spk, b58Decode req.signer = some spk) ∧
        ∀ a ∈ req.args, ∃ bs, decodeArgument a = .ok bs)) ∧
    ∀ e, create_transaction_blob now_nanos req = .error e →
      ∃ msg, e = .ValidationFailed msg := by
  constructor
  · constructor
    · intro ⟨blob, hb⟩
      obtain ⟨spk, args, hspk, hargs, _⟩ :=
        create_transaction_blob_ok now_nanos req blob hb
      exact ⟨⟨spk, hspk⟩, (decodeArgs_ok_iff req.args).mp ⟨args, hargs⟩⟩
    · intro ⟨⟨spk, hspk⟩, hall⟩
      obtain ⟨args, hargs⟩ := (decodeArgs_ok_iff req.args).mpr hall
      refine ⟨⟨b58Encode (encodeTx (assembledTx req spk args now_nanos)),
        hexEncode (sha256 (encodeTx (assembledTx req spk args now_nanos))),
        b58Encode (sha256 (encodeTx (assembledTx req spk args now_nanos))),
        encodeTx (assembledTx req spk args now_nanos)⟩, ?_⟩
      rw [create_transaction_blob, hspk, hargs]
      rfl
  · intro e h
    rw [create_transaction_blob] at h
    cases hs : b58Decode req.signer with
    | none =>
      rw [hs] at h
      injection h with h'
      exact ⟨_, h'.symm⟩
    | some spk =>
      rw [hs] at h
      cases ha : decodeArgs req.args with
      | error e0 =>
        rw [ha] at h
        injection h with h'
        rcases decodeArgs_error_mem req.args e0 ha with ⟨a, _, hd⟩
        obtain ⟨msg, hm⟩ := decodeArgument_error_validation a e0 hd
        exact ⟨msg, h' ▸ hm⟩
      | ok args =>
        rw [ha] at h
        have h' : Except.ok (ε := BlockchainError)
            (⟨b58Encode (encodeTx (assembledTx req spk args now_nanos)),
              hexEncode (sha256 (encodeTx (assembledTx req spk args now_nanos))),
              b58Encode (sha256 (encodeTx (assembledTx req spk args now_nanos))),
              encodeTx (assembledTx req spk args now_nanos)⟩ :
                UnsignedTransactionBlob) = .error e := h
        cases h'

/-- Witness for C6: a request whose signer text `"0"` is not valid Base58
fails, and the error is `ValidationFailed`. -/
theorem c6_validation_failed_iff_witness :
    (¬ ((∃ spk, b58Decode ([48] : List Nat) = some spk) ∧
        ∀ a ∈ ([] : List Argument), ∃ bs, decodeArgument a = .ok bs)) ∧
    (¬ ∃ blob, create_transaction_blob 0 ⟨[48], [], [], [], none, none, some 0⟩ = .ok blob) ∧
    ∃ msg, BlockchainError.ValidationFailed "invalid signer base58" =
      .ValidationFailed msg := by
  have hiff := c6_validation_failed_iff 0 ⟨[48], [], [], [], none, none, some 0⟩
  have hne : ¬ ((∃ spk, b58Decode ([48] : List Nat) = some spk) ∧
      ∀ a ∈ ([] : List Argument), ∃ bs, decodeArgument a = .ok bs) := by
    intro ⟨⟨spk, hspk⟩, _⟩
    cases hspk
  exact ⟨hne, fun hex => hne (hiff.1.mp hex), hiff.2 _ rfl⟩

theorem decodeTx_encodeTx_nil (t : Tx) : decodeTx (encodeTx t) = some (t, []) := by
  rw [show encodeTx t = encodeTx t ++ [] by simp, decodeTx_encodeTx]

/-- **C7.** The canonical encoding omits an absent `attached_symbol` /
`attached_amount` entirely, so the encoding of an action with the field
absent differs from the encoding of the same action with the field set to the
empty byte string, and decoding distinguishes the two. -/
theorem c7_absent_field_vs_empty (t : Tx) :
    (encodeTx {t with action := {t.action with attached_symbol := none}} ≠
      encodeTx {t with action := {t.action with attached_symbol := some []}}) ∧
    (decodeTx (encodeTx {t with action := {t.action with attached_symbol := none}}) =
      some ({t with action := {t.action with attached_symbol := none}}, [])) ∧
    (decodeTx (encodeTx {t with action := {t.action with attached_symbol := some []}}) =
      some ({t with action := {t.action with attached_symbol := some []}}, [])) ∧
    (encodeTx {t with action := {t.action with attached_amount := none}} ≠
      encodeTx {t with action := {t.action with attached_amount := some []}}) := by
  refine ⟨?_, decodeTx_encodeTx_nil _, decodeTx_encodeTx_nil _, ?_⟩
  · intro heq
    have h1 := decodeTx_encodeTx_nil {t with action := {t.action with attached_symbol := none}}
    have h2 := decodeTx_encodeTx_nil {t with action := {t.action with attached_symbol := some []}}
    rw [heq, h2] at h1
    simp [Tx.mk.injEq, TxAction.mk.injEq] at h1
  · intro heq
    have h1 := decodeTx_encodeTx_nil {t with action := {t.action with attached_amount := none}}
    have h2 := decodeTx_encodeTx_nil {t with action := {t.action with attached_amount := some []}}
    rw [heq, h2] at h1
    simp [Tx.mk.injEq, TxAction.mk.injEq] at h1

/-- An attempt outcome that `retry_request` classifies as a failure
(transport error or non-2xx status). -/
def AttemptFails : HttpOutcome → Prop
  | .transportError _ => True
  | .response st _ => ¬ isSuccessStatus st

/-- A transport that always fails. -/
def alwaysFailOracle : Nat → HttpOutcome := fun _ => .transportError "connection refused"

theorem attemptRun_fails (o : HttpOutcome) (h : AttemptFails o) :
    ∃ e, attemptRun "GET" o = .error e := by
  cases o with
  | transportError m =>
    exact ⟨.HttpRequest m, rfl⟩
  | response st body =>
    refine ⟨.InvalidResponse ("HTTP " ++ toString st ++ ": request failed"), ?_⟩
    have hns : ¬ isSuccessStatus st = true := h
    rw [attemptRun, if_neg (by simp)]
    simp only [hns, if_false, Bool.false_eq_true]

theorem retrySpawnGo_all_fail {α : Type} (run : Nat → Except BlockchainError α)
    (hrun : ∀ k, ∃ e, run k = .error e) :
    ∀ delays k slept, ∃ e,
      retrySpawnGo run delays k slept =
        (.error e, k + delays.length + 1, slept ++ delays) := by
  intro delays
  induction delays with
  | nil =>
    intro k slept
    obtain ⟨e, he⟩ := hrun k
    exact ⟨e, by rw [retrySpawnGo, he]; simp⟩
  | cons d ds ih =>
    intro k slept
    obtain ⟨e, he⟩ := hrun k
    obtain ⟨e', he'⟩ := ih (k + 1) (slept ++ [d])
    refine ⟨e', ?_⟩
    rw [retrySpawnGo, he]
    show retrySpawnGo run ds (k + 1) (slept ++ [d]) =
      (Except.error e', k + (d :: ds).length + 1, slept ++ d :: ds)
    rw [he']
    simp only [Prod.mk.injEq, List.append_assoc, List.singleton_append,
      List.length_cons, true_and, and_true]
    omega

/-- **C3 (amended).** A read-path request whose every HTTP attempt fails
performs exactly 4 attempts (one initial attempt plus the 3 retries of the
`take(3)` strategy) and then returns `NetworkRetryExhausted` carrying
`attempts = 3`; it never performs a fifth attempt. -/
theorem c3_retry_bound (oracle : Nat → HttpOutcome) (jf : Nat → Nat → Nat)
    (hfail : ∀ n, AttemptFails (oracle n)) :
    (retry_request oracle jf "GET").1 = .error (.NetworkRetryExhausted 3) ∧
    (retry_request oracle jf "GET").2.1 = 4 := by
  obtain ⟨e, he⟩ := retrySpawnGo_all_fail
    (fun k => attemptRun "GET" (oracle k))
    (fun k => attemptRun_fails (oracle k) (hfail k))
    (retryDelays jf) 0 []
  rw [retry_request]
  simp only [he]
  constructor
  · rfl
  · show 0 + (retryDelays jf).length + 1 = 4
    rw [show (retryDelays jf).length = 3 by simp [retryDelays]]

/-- Witness for the amended C3 at a concrete always-failing transport. -/
theorem c3_retry_bound_witness :
    (∀ n, AttemptFails (alwaysFailOracle n)) ∧
    (retry_request alwaysFailOracle (fun _ d => d) "GET").1 =
      .error (.NetworkRetryExhausted 3) ∧
    (retry_request alwaysFailOracle (fun _ d => d) "GET").2.1 = 4 := by
  have hf : ∀ n, AttemptFails (alwaysFailOracle n) := fun _ => trivial
  obtain ⟨h1, h2⟩ := c3_retry_bound alwaysFailOracle (fun _ d => d) hf
  exact ⟨hf, h1, h2⟩

/-- **C3 (counterexample to the claim as stated).** With an always-failing
transport the client performs 4 attempts, not 3. -/
theorem c3_counterexample :
    (retry_request alwaysFailOracle (fun _ d => d) "GET").2.1 = 4 ∧
    (retry_request alwaysFailOracle (fun _ d => d) "GET").2.1 ≠ 3 := by
  exact ⟨rfl, by decide⟩

/-- **C8 (amended).** The delay before retry `n` (1-based), before jitter, is
`100^n` ms — the `tokio_retry` strategy starts at the base 100 ms and
multiplies by the base each step (saturating at `u64::MAX`) — and the jitter
transform is applied to each delay; with all attempts failing these are
exactly the delays slept. -/
theorem c8_backoff_delays (jf : Nat → Nat → Nat) :
    retryDelays jf = [jf 0 100, jf 1 10000, jf 2 1000000] ∧
    ∀ oracle : Nat → HttpOutcome, (∀ n, AttemptFails (oracle n)) →
      (retry_request oracle jf "GET").2.2 = [jf 0 100, jf 1 10000, jf 2 1000000] := by
  constructor
  · rfl
  · intro oracle hfail
    obtain ⟨e, he⟩ := retrySpawnGo_all_fail
      (fun k => attemptRun "GET" (oracle k))
      (fun k => attemptRun_fails (oracle k) (hfail k))
      (retryDelays jf) 0 []
    rw [retry_request]
    simp only [he]
    rfl

/-- Witness for the amended C8 with identity jitter and an always-failing
transport. -/
theorem c8_backoff_delays_witness :
    retryDelays (fun _ d => d) = [100, 10000, 1000000] ∧
    (∀ n, AttemptFails (alwaysFailOracle n)) ∧
    (retry_request alwaysFailOracle (fun _ d => d) "GET").2.2 =
      [100, 10000, 1000000] := by
  have hf : ∀ n, AttemptFails (alwaysFailOracle n) := fun _ => trivial
  obtain ⟨h1, h2⟩ := c8_backoff_delays (fun _ d => d)
  exact ⟨h1, hf, h2 alwaysFailOracle hf⟩

/-- **C8 (counterexample to the claim as stated).** The delay before retry 2
(before jitter) is 10000 ms, not `100 * 2^(2-1) = 200` ms. -/
theorem c8_counterexample :
    (retryDelays (fun _ d => d)).getD 1 0 = 10000 ∧
    (100 * 2 ^ (2 - 1) : Nat) ≠ 10000 := by
  exact ⟨rfl, by decide⟩

/-- **C9.** The requests built by the client carry no `Authorization` header
at all: `retry_request` attaches only `Content-Type: application/json` and
`submit_signed_transaction` only `Content-Type: text/plain`; the
`BlockchainClient` struct in `src/blockchain/client.rs` stores no credential
(its `new` takes only the base URL), even though `main.rs` reads
`BLOCKCHAIN_API_KEY` and passes it to `BlockchainClient::new`. -/
theorem c9_no_authorization_header (base_url path : String) (body : Option Json)
    (url : String) (txu : List Nat) :
    ((buildRetryRequest base_url path body).headers =
        [("Content-Type", "application/json")] ∧
      ∀ v, ("Authorization", v) ∉ (buildRetryRequest base_url path body).headers) ∧
    ((buildSubmitRequest url txu).headers = [("Content-Type", "text/plain")] ∧
      ∀ v, ("Authorization", v) ∉ (buildSubmitRequest url txu).headers) := by
  refine ⟨⟨rfl, ?_⟩, ⟨rfl, ?_⟩⟩ <;>
    (intro v h
     simp only [buildRetryRequest, buildSubmitRequest, List.mem_singleton,
       Prod.mk.injEq] at h
     exact absurd h.1 (by decide))

/-- A concrete well-formed transaction and its Base58 blob text. -/
def sampleTx : Tx := ⟨⟨[], [], [], opCall, none, none⟩, 0, [0]⟩

/-- **C10.** `submit_signed_transaction` issues at most one HTTP attempt and
can never return `NetworkRetryExhausted`; whenever finalization succeeds it
issues exactly one attempt, returns the `HttpRequest` error immediately on a
transport failure, and returns `InvalidResponse` immediately on a non-2xx
status (no retry in either case). -/
theorem c10_submit_single_attempt (outcome : HttpOutcome) (tx : SignedTransaction) :
    (submit_signed_transaction outcome tx).2 ≤ 1 ∧
    (∀ n, (submit_signed_transaction outcome tx).1 ≠
      .error (.NetworkRetryExhausted n)) ∧
    ∀ fin, finalize_transaction tx.transaction tx.signature = .ok fin →
      (submit_signed_transaction outcome tx).2 = 1 ∧
      (∀ m, outcome = .transportError m →
        (submit_signed_transaction outcome tx).1 = .error (.HttpRequest m)) ∧
      (∀ st body, outcome = .response st body → ¬ isSuccessStatus st →
        (submit_signed_transaction outcome tx).1 =
          .error (.InvalidResponse ("HTTP " ++ toString st))) := by
  cases hf : finalize_transaction tx.transaction tx.signature with
  | error e =>
    refine ⟨?_, ?_, ?_⟩
    · simp [submit_signed_transaction, hf]
    · intro n
      simp only [submit_signed_transaction, hf]
      intro hcon
      injection hcon with h'
      cases h'
    · intro fin hfin
      cases hfin
  | ok fin =>
    cases outcome with
    | transportError m =>
      refine ⟨?_, ?_, ?_⟩
      · simp [submit_signed_transaction, hf]
      · intro n
        simp only [submit_signed_transaction, hf]
        intro hcon
        injection hcon with h'
        cases h'
      · intro fin' _
        refine ⟨by simp [submit_signed_transaction, hf], ?_, ?_⟩
        · intro m' hm
          injection hm with h'
          subst h'
          simp [submit_signed_transaction, hf]
        · intro st body hcon
          cases hcon
    | response st body =>
      by_cases hst : isSuccessStatus st
      · refine ⟨?_, ?_, ?_⟩
        · simp only [submit_signed_transaction, hf, hst, if_true]
          cases body <;> simp
        · intro n
          simp only [submit_signed_transaction, hf, hst, if_true]
          cases body with
          | none =>
            intro hcon
            injection hcon with h'
            cases h'
          | some j =>
            intro hcon
            cases hcon
        · intro fin' _
          refine ⟨?_, ?_, ?_⟩
          · simp only [submit_signed_transaction, hf, hst, if_true]
            cases body <;> simp
          · intro m hm
            cases hm
          · intro st' body' hr hns
            injection hr with h1 h2
            subst h1
            exact absurd hst hns
      · refine ⟨?_, ?_, ?_⟩
        · simp [submit_signed_transaction, hf, hst]
        · intro n
          simp only [submit_signed_transaction, hf, hst, if_false,
            Bool.false_eq_true]
          intro hcon
          injection hcon with h'
          cases h'
        · intro fin' _
          refine ⟨by simp [submit_signed_transaction, hf, hst], ?_, ?_⟩
          · intro m hm
            cases hm
          · intro st' body' hr hns
            injection hr with h1 h2
            subst h1
            simp [submit_signed_transaction, hf, hst]

set_option maxRecDepth 8192 in
/-- Witness for C10: a finalizable signed transaction and a transport
failure — exactly one attempt, immediate `HttpRequest` error. -/
theorem c10_submit_single_attempt_witness :
    ∃ fin, finalize_transaction (b58Encode (encodeTx sampleTx)) [49] = .ok fin ∧
      (submit_signed_transaction (.transportError "connection refused")
        ⟨b58Encode (encodeTx sampleTx), [49], none⟩).2 = 1 ∧
      (submit_signed_transaction (.transportError "connection refused")
        ⟨b58Encode (encodeTx sampleTx), [49], none⟩).1 =
        .error (.HttpRequest "connection refused") := by
  have h := c10_submit_single_attempt (.transportError "connection refused")
    ⟨b58Encode (encodeTx sampleTx), [49], none⟩
  refine ⟨_, rfl, (h.2.2 _ rfl).1, (h.2.2 _ rfl).2.1 "connection refused" rfl⟩

/-- A transport whose (first) response is HTTP 200 with body
`{"error":"not_found"}`. -/
def notFoundOracle : Nat → HttpOutcome :=
  fun _ => .response 200 (some (.obj [("error", .str "not_found")]))

/-- **C4 (amended).** A `get_transaction` call whose HTTP response body
parses as JSON with field `"error"` equal to `"not_found"` returns the
generic `InvalidResponse` kind with the distinct message
`"transaction not found"` — not the domain-specific `AccountNotFound` kind. -/
theorem c4_not_found_maps_to_invalid_response (oracle : Nat → HttpOutcome)
    (jf : Nat → Nat → Nat) (r : Nat × Option Json) (j : Json)
    (hok : (retry_request oracle jf "GET").1 = .ok r) (hbody : r.2 = some j)
    (hnf : jsonErrorField j = some "not_found") (tx_hash : String) :
    get_transaction oracle jf tx_hash =
      .error (.InvalidResponse "transaction not found") := by
  have hpr : parse_response r = .ok j := by
    unfold parse_response
    rw [hbody]
  unfold get_transaction
  rw [hok]
  show (match parse_response r with
    | .error e => (.error e : Except BlockchainError Transaction)
    | .ok api => getTransactionFromJson api) =
    .error (.InvalidResponse "transaction not found")
  rw [hpr]
  show getTransactionFromJson j = .error (.InvalidResponse "transaction not found")
  rw [getTransactionFromJson, if_pos hnf]

/-- Witness for the amended C4 at the concrete `not_found` transport. -/
theorem c4_not_found_maps_to_invalid_response_witness :
    (retry_request notFoundOracle (fun _ d => d) "GET").1 =
      Except.ok ((200 : Nat), some (Json.obj [("error", Json.str "not_found")])) ∧
    jsonErrorField (Json.obj [("error", Json.str "not_found")]) = some "not_found" ∧
    get_transaction notFoundOracle (fun _ d => d) "sometxhash" =
      .error (.InvalidResponse "transaction not found") := by
  refine ⟨rfl, rfl, ?_⟩
  exact c4_not_found_maps_to_invalid_response notFoundOracle (fun _ d => d)
    (200, some (Json.obj [("error", Json.str "not_found")]))
    (Json.obj [("error", Json.str "not_found")]) rfl rfl rfl "sometxhash"

/-- **C4 (counterexample to the claim as stated).** The error returned for a
`{"error":"not_found"}` body *is* the generic `InvalidResponse` kind, and it
is not `AccountNotFound`. -/
theorem c4_counterexample :
    get_transaction notFoundOracle (fun _ d => d) "sometxhash" =
      .error (.InvalidResponse "transaction not found") ∧
    ∀ addr, BlockchainError.InvalidResponse "transaction not found" ≠
      .AccountNotFound addr := by
  constructor
  · rfl
  · intro addr h
    cases h

/-- Witness for C7 at a concrete transaction. -/
theorem c7_absent_field_vs_empty_witness :
    (encodeTx {sampleTx with action := {sampleTx.action with attached_symbol := none}} ≠
      encodeTx {sampleTx with action := {sampleTx.action with attached_symbol := some []}}) ∧
    (decodeTx (encodeTx {sampleTx with action := {sampleTx.action with attached_symbol := none}}) =
      some ({sampleTx with action := {sampleTx.action with attached_symbol := none}}, [])) ∧
    (decodeTx (encodeTx {sampleTx with action := {sampleTx.action with attached_symbol := some []}}) =
      some ({sampleTx with action := {sampleTx.action with attached_symbol := some []}}, [])) ∧
    (encodeTx {sampleTx with action := {sampleTx.action with attached_amount := none}} ≠
      encodeTx {sampleTx with action := {sampleTx.action with attached_amount := some []}}) :=
  c7_absent_field_vs_empty sampleTx

/-- Witness for C9 at a concrete base URL, path and submit URL. -/
theorem c9_no_authorization_header_witness :
    ((buildRetryRequest "https://nodes.amadeus.bot" "/api/chain/stats" none).headers =
        [("Content-Type", "application/json")] ∧
      ∀ v, ("Authorization", v) ∉
        (buildRetryRequest "https://nodes.amadeus.bot" "/api/chain/stats" none).headers) ∧
    ((buildSubmitRequest "https://nodes.amadeus.bot" []).headers =
        [("Content-Type", "text/plain")] ∧
      ∀ v, ("Authorization", v) ∉
        (buildSubmitRequest "https://nodes.amadeus.bot" []).headers) :=
  c9_no_authorization_header "https://nodes.amadeus.bot" "/api/chain/stats" none
    "https://nodes.amadeus.bot" []

end AmadeusMcp
